import Mathlib

/-!
# The SHA-256 engine of `blckchain.cpp`

A shallow embedding of the class `SHA256` (`src/src/blckchain.cpp`) and the
properties of its streaming interface `update` / `finalize` / `hash`.

Conventions of the embedding:

* `unsigned int` is a `Nat` kept below `2^32` by an explicit `% 4294967296`
  after every operation that can leave the range (`+`, `<<`, `~`);
* `unsigned char` is `Fin 256`, so `std::vector<unsigned char>` is
  `List (Fin 256)`;
* the fixed-size arrays `h[8]` and `w[64]` are lists of words of that
  length (`Words 8`, `Words 64`); `w` is not initialised by the constructor,
  so a fresh engine takes the prior content of `w` as a parameter;
* the `while` loop of `update` runs on fuel, and `update` supplies the
  buffer length, which the loop provably never uses up;
* `int` operands of the packing expression are kept as their 32-bit two's
  complement patterns, on which `<<`, `|` and the conversion to `unsigned int`
  act as on unsigned words;
* a second copy of the engine (`transformChecked`, `updateChecked`, ...)
  checks every subscript and returns `none` on a violation;
* the namespace `FIPS` holds SHA-256 as the standard defines it, written
  independently of the engine, for the statements that compare the two.
-/

namespace SHA256

/-! ## Machine words -/

/-- An `unsigned char`. -/
abbrev Byte := Fin 256

/-- Wrap-around of `unsigned int`. -/
def u32 (x : Nat) : Nat := x % 4294967296

/-- A fixed-size array `unsigned int a[n]`. -/
structure Words (n : Nat) where
  val : List Nat
  len : val.length = n

/-- Read `a[i]`. -/
def Words.get {n : Nat} (a : Words n) (i : Nat) : Nat := a.val.getD i 0

/-- Store `v` at index `t` of a fixed-size array (`a[t] = v`). -/
def setAt {n : Nat} (a : Words n) (t v : Nat) : Words n :=
  ⟨a.val.set t v, by rw [List.length_set, a.len]⟩

/-- Round constants: `static constexpr unsigned int k[64]`, eight to a line as
in the source (hexadecimal digits in capitals). -/
def k : List Nat :=
  [0x428A2F98, 0x71374491, 0xB5C0FBCF, 0xE9B5DBA5, 0x3956C25B, 0x59F111F1, 0x923F82A4, 0xAB1C5ED5,
   0xD807AA98, 0x12835B01, 0x243185BE, 0x550C7DC3, 0x72BE5D74, 0x80DEB1FE, 0x9BDC06A7, 0xC19BF174,
   0xE49B69C1, 0xEFBE4786, 0x0FC19DC6, 0x240CA1CC, 0x2DE92C6F, 0x4A7484AA, 0x5CB0A9DC, 0x76F988DA,
   0x983E5152, 0xA831C66D, 0xB00327C8, 0xBF597FC7, 0xC6E00BF3, 0xD5A79147, 0x06CA6351, 0x14292967,
   0x27B70A85, 0x2E1B2138, 0x4D2C6DFC, 0x53380D13, 0x650A7354, 0x766A0ABB, 0x81C2C92E, 0x92722C85,
   0xA2BFE8A1, 0xA81A664B, 0xC24B8B70, 0xC76C51A3, 0xD192E819, 0xD6990624, 0xF40E3585, 0x106AA070,
   0x19A4C116, 0x1E376C08, 0x2748774C, 0x34B0BCB5, 0x391C0CB3, 0x4ED8AA4A, 0x5B9CCA4F, 0x682E6FF3,
   0x748F82EE, 0x78A5636F, 0x84C87814, 0x8CC70208, 0x90BEFFFA, 0xA4506CEB, 0xBEF9A3F7, 0xC67178F2]

/-- Initial hash values: the member initialiser of `unsigned int h[8]`. -/
def initH : Words 8 :=
  ⟨[0x6a09e667, 0xbb67ae85, 0x3c6ef372, 0xa54ff53a,
    0x510e527f, 0x9b05688c, 0x1f83d9ab, 0x5be0cd19], rfl⟩

/-- The `rotr` of the source: `(x >> n) | (x << (32 - n))` on `unsigned int`. -/
def rotr (x n : Nat) : Nat := (x >>> n) ||| u32 (x <<< (32 - n))

/-- The `ch` of the source: `(x & y) ^ (~x & z)`. -/
def ch (x y z : Nat) : Nat := (x &&& y) ^^^ (u32 (4294967295 ^^^ x) &&& z)

/-- The `maj` of the source: `(x & y) ^ (x & z) ^ (y & z)`. -/
def maj (x y z : Nat) : Nat := (x &&& y) ^^^ (x &&& z) ^^^ (y &&& z)

/-- The `sigma0` of the source. -/
def sigma0 (x : Nat) : Nat := rotr x 2 ^^^ rotr x 13 ^^^ rotr x 22

/-- The `sigma1` of the source. -/
def sigma1 (x : Nat) : Nat := rotr x 6 ^^^ rotr x 11 ^^^ rotr x 25

/-- The `omega0` of the source. -/
def omega0 (x : Nat) : Nat := rotr x 7 ^^^ rotr x 18 ^^^ (x >>> 3)

/-- The `omega1` of the source. -/
def omega1 (x : Nat) : Nat := rotr x 17 ^^^ rotr x 19 ^^^ (x >>> 10)

end SHA256

/-! ## The engine -/

/-- The data members of `class SHA256`: hash state `h[8]`, byte buffer `data`
and message schedule `w[64]`. -/
structure SHA256 where
  h : SHA256.Words 8
  data : List SHA256.Byte
  w : SHA256.Words 64

namespace SHA256

/-- A newly constructed engine: `h` holds the initial values, `data` is empty
and `w` holds whatever the storage held before (`w0`). -/
def fresh (w0 : Words 64) : SHA256 := { h := initH, data := [], w := w0 }

/-- The eight working variables `a, b, c, d, e, f, g, h0` of `transform`. -/
structure Regs where
  a : Nat
  b : Nat
  c : Nat
  d : Nat
  e : Nat
  f : Nat
  g : Nat
  h0 : Nat

/-- Body of the first loop of `transform`:
`w[t] = omega1(w[t-2]) + w[t-7] + omega0(w[t-15]) + w[t-16]`. -/
def expandStep (w : Words 64) (t : Nat) : Words 64 :=
  setAt w t (u32 (u32 (u32 (omega1 (w.get (t - 2)) + w.get (t - 7)) + omega0 (w.get (t - 15))) + w.get (t - 16)))

/-- Body of the main loop of `transform` at round `t`. -/
def roundStep (w : Words 64) (r : Regs) (t : Nat) : Regs :=
  let T1 := u32 (u32 (u32 (u32 (r.h0 + sigma1 r.e) + ch r.e r.f r.g) + k.getD t 0) + w.get t)
  let T2 := u32 (sigma0 r.a + maj r.a r.b r.c)
  { h0 := r.g, g := r.f, f := r.e, e := u32 (r.d + T1),
    d := r.c, c := r.b, b := r.a, a := u32 (T1 + T2) }

/-- The `transform` of the source: expand `w[16..63]`, run the 64 rounds from
the current hash state and add the working variables back into `h`. -/
def transform (s : SHA256) : SHA256 :=
  let w := (List.range' 16 48).foldl expandStep s.w
  let r0 : Regs := { a := s.h.get 0, b := s.h.get 1, c := s.h.get 2, d := s.h.get 3,
                     e := s.h.get 4, f := s.h.get 5, g := s.h.get 6, h0 := s.h.get 7 }
  let r := (List.range 64).foldl (roundStep w) r0
  let h0 := setAt s.h 0 (u32 (s.h.get 0 + r.a))
  let h1 := setAt h0 1 (u32 (h0.get 1 + r.b))
  let h2 := setAt h1 2 (u32 (h1.get 2 + r.c))
  let h3 := setAt h2 3 (u32 (h2.get 3 + r.d))
  let h4 := setAt h3 4 (u32 (h3.get 4 + r.e))
  let h5 := setAt h4 5 (u32 (h4.get 5 + r.f))
  let h6 := setAt h5 6 (u32 (h5.get 6 + r.g))
  let h7 := setAt h6 7 (u32 (h6.get 7 + r.h0))
  { s with h := h7, w := w }

/-- Read `data[i]`, promoted to `int` as in the source expressions. -/
def byteAt (data : List Byte) (i : Nat) : Nat := (data.getD i 0).val

/-- The packing expression
`(data[p] << 24) | (data[p+1] << 16) | (data[p+2] << 8) | data[p+3]`,
converted to `unsigned int` by the assignment to `w[j]`; the `int` operands
are kept as 32-bit patterns. -/
def packWord (data : List Byte) (p : Nat) : Nat :=
  u32 ((byteAt data p <<< 24) ||| (byteAt data (p + 1) <<< 16) |||
       (byteAt data (p + 2) <<< 8) ||| byteAt data (p + 3))

/-- The loop `for j in 0..15: w[j] = pack(data[off + 4j ..])`. -/
def packBlock (w : Words 64) (data : List Byte) (off : Nat) : Words 64 :=
  (List.range 16).foldl (fun w j => setAt w j (packWord data (off + j * 4))) w

/-- Body of the expansion loop written out inside `update`:
`s0`, `s1`, then `w[j] = w[j-16] + s0 + w[j-7] + s1`. -/
def expandInline (w : Words 64) (j : Nat) : Words 64 :=
  let s0 := rotr (w.get (j - 15)) 7 ^^^ rotr (w.get (j - 15)) 18 ^^^ (w.get (j - 15) >>> 3)
  let s1 := rotr (w.get (j - 2)) 17 ^^^ rotr (w.get (j - 2)) 19 ^^^ (w.get (j - 2) >>> 10)
  setAt w j (u32 (u32 (u32 (w.get (j - 16) + s0) + w.get (j - 7)) + s1))

/-- One iteration of the `while` loop of `update`: pack the first 64 bytes,
expand, `transform()`, erase the first 64 bytes. -/
def drainStep (s : SHA256) : SHA256 :=
  let w1 := packBlock s.w s.data 0
  let w2 := (List.range' 16 48).foldl expandInline w1
  let s1 := transform { s with w := w2 }
  { s1 with data := s1.data.drop 64 }

/-- The loop `while (data.size() >= 64) { ... }` of `update`, on fuel. -/
def drain : Nat → SHA256 → SHA256
  | 0, s => s
  | fuel + 1, s => if 64 ≤ s.data.length then drain fuel (drainStep s) else s

/-- The `update` of the source: append the bytes of `msg` to `data`, then
drain every full 64-byte block. -/
def update (s : SHA256) (msg : List Byte) : SHA256 :=
  let s1 := { s with data := s.data ++ msg }
  drain s1.data.length s1

/-- Wrap-around of `size_t` and `uint64_t`. -/
def u64 (x : Nat) : Nat := x % 18446744073709551616

/-- The value of `padLength` when the zero-filling loop starts:
`64 - (originalLength + 8) % 64`, then `padLength -= 1` in `size_t`. -/
def padLength (originalLength : Nat) : Nat :=
  u64 (u64 (64 - u64 (originalLength + 8) % 64) + 18446744073709551616 - 1)

/-- The eight bytes `(bitLength >> (8 * i)) & 0xff` for `i = 7, ..., 0`, with
`bitLength = uint64_t(originalLength) * 8`. -/
def lengthBytes (originalLength : Nat) : List Byte :=
  let bitLength := u64 (u64 originalLength * 8)
  [7, 6, 5, 4, 3, 2, 1, 0].map (fun i => Fin.ofNat ((bitLength >>> (8 * i)) &&& 0xff))

/-- The buffer after `0x80` and the `0x00` bytes were pushed and before the
length field is pushed. -/
def padMarker (data : List Byte) : List Byte :=
  data ++ [0x80] ++ List.replicate (padLength data.length) 0x00

/-- The buffer that `finalize` processes: `data`, `0x80`, zeros, length field. -/
def padded (data : List Byte) : List Byte :=
  padMarker data ++ lengthBytes data.length

/-- Body of the processing loop of `finalize` for block `i`. -/
def finalStep (s : SHA256) (i : Nat) : SHA256 :=
  transform { s with w := packBlock s.w s.data (i * 64) }

/-- Digits of the `std::hex` rendering of an `unsigned int` (lowercase). -/
def hexDigit (d : Nat) : Char :=
  if d < 10 then Char.ofNat (48 + d) else Char.ofNat (87 + d)

/-- The `std::hex` rendering of `n` without padding, most significant digit
first; `fuel` bounds the number of digits. -/
def hexDigits : Nat → Nat → List Char → List Char
  | 0, _, acc => acc
  | fuel + 1, n, acc =>
    if n / 16 = 0 then hexDigit (n % 16) :: acc
    else hexDigits fuel (n / 16) (hexDigit (n % 16) :: acc)

/-- Output of `ss << std::hex << std::setw(8) << std::setfill('0') << x` for
an `unsigned int` x: the digits, left-padded with `'0'` to width 8. -/
def hex8 (x : Nat) : List Char :=
  let ds := hexDigits 8 (u32 x) []
  List.replicate (8 - ds.length) '0' ++ ds

/-- The serialisation loop of `finalize`, started on the stream content
`"0x "`: each word through `hex8`, then the empty separator when `i < 7`. -/
def serialize (h : Words 8) : List Char :=
  (List.range 8).foldl
    (fun ss i => (ss ++ hex8 (h.get i)) ++ (if i < 7 then "".data else [])) "0x ".data

/-- The engine state that `finalize` leaves behind. -/
def finalizeState (s : SHA256) : SHA256 :=
  let s1 := { s with data := padded s.data }
  (List.range (s1.data.length / 64)).foldl finalStep s1

/-- The `finalize` of the source: the returned digest string. -/
def finalize (s : SHA256) : String :=
  String.mk (serialize (finalizeState s).h)

/-- The `hash` of the source: a fresh engine, one `update`, `finalize`. -/
def hash (w0 : Words 64) (data : List Byte) : String :=
  finalize (update (fresh w0) data)

/-- The bytes of the C string `"hello"`. -/
def hello : List Byte := [104, 101, 108, 108, 111]

/-- The bytes of 64 times the character `'a'`: one full block. -/
def a64 : List Byte := List.replicate 64 97

/-- A message schedule holding zeros, as one possible prior content of `w`. -/
def zeroW : Words 64 := ⟨List.replicate 64 0, rfl⟩

/-- The characters `0-9a-f`. -/
def isLowerHex (c : Char) : Prop := c ∈ "0123456789abcdef".data

/-- Two arrays agree on the indices below `m`. -/
def Agree {n : Nat} (m : Nat) (a b : Words n) : Prop :=
  ∀ i, i < m → a.get i = b.get i

/-- Two engine states with the same hash state and the same buffer; their
message schedules may differ. -/
def SameCore (s1 s2 : SHA256) : Prop := s1.h = s2.h ∧ s1.data = s2.data

/-- The hash state after the block processing of `update` (pack, expand,
`transform()`) on hash state `h` and a buffer that starts with `block`. -/
def blockHash (h : Words 8) (block : List Byte) : Words 8 :=
  (drainStep { h := h, data := block, w := zeroW }).h

/-- Value of a hexadecimal digit `0-9a-f`; 0 for any other character. -/
def hexVal (c : Char) : Nat :=
  if '0' ≤ c ∧ c ≤ '9' then c.toNat - 48
  else if 'a' ≤ c ∧ c ≤ 'f' then c.toNat - 87
  else 0

/-- Base-16 reading of a run of digits, most significant first. -/
def parseHex (cs : List Char) : Nat := cs.foldl (fun a c => a * 16 + hexVal c) 0

/-- Group `i` of a digest: the 8 characters from position `3 + 8 * i`. -/
def digestGroup (s : List Char) (i : Nat) : List Char := (s.drop (3 + 8 * i)).take 8

/-- The working variables as the list `[a, b, c, d, e, f, g, h0]`. -/
def Regs.toList (r : Regs) : List Nat := [r.a, r.b, r.c, r.d, r.e, r.f, r.g, r.h0]

/-- All eight working variables are 32-bit values. -/
def Regs.Good (r : Regs) : Prop :=
  r.a < 2 ^ 32 ∧ r.b < 2 ^ 32 ∧ r.c < 2 ^ 32 ∧ r.d < 2 ^ 32 ∧
  r.e < 2 ^ 32 ∧ r.f < 2 ^ 32 ∧ r.g < 2 ^ 32 ∧ r.h0 < 2 ^ 32

/-- All entries of an array are 32-bit values. -/
def Words.Good {n : Nat} (a : Words n) : Prop := ∀ i, a.get i < 2 ^ 32

/-- The statements `h[0] += a; ...; h[7] += h0` that end `transform`. -/
def addWords (h : Words 8) (r : Regs) : Words 8 :=
  let h0 := setAt h 0 (u32 (h.get 0 + r.a))
  let h1 := setAt h0 1 (u32 (h0.get 1 + r.b))
  let h2 := setAt h1 2 (u32 (h1.get 2 + r.c))
  let h3 := setAt h2 3 (u32 (h2.get 3 + r.d))
  let h4 := setAt h3 4 (u32 (h3.get 4 + r.e))
  let h5 := setAt h4 5 (u32 (h4.get 5 + r.f))
  let h6 := setAt h5 6 (u32 (h5.get 6 + r.g))
  setAt h6 7 (u32 (h6.get 7 + r.h0))

/-- The big-endian encoding of `n` on 8 bytes, as the padding rule of the
specification words it ("8-byte big-endian unsigned integer"). -/
def beBytes64 (n : Nat) : List Byte :=
  [Fin.ofNat (n / 2 ^ 56), Fin.ofNat (n / 2 ^ 48), Fin.ofNat (n / 2 ^ 40), Fin.ofNat (n / 2 ^ 32),
   Fin.ofNat (n / 2 ^ 24), Fin.ofNat (n / 2 ^ 16), Fin.ofNat (n / 2 ^ 8), Fin.ofNat n]

/-! ## The engine with checked array accesses

The same functions with every subscript checked against the size of the array
or vector it indexes: a read or write out of bounds, an index expression
`t - c` that would go below zero, or an `erase` of more elements than the
vector holds, gives `none`. -/

/-- Checked read `a[i]`. -/
def readAt {n : Nat} (a : Words n) (i : Nat) : Option Nat := a.val[i]?

/-- Checked read `a[t - c]`; `none` when `t - c` would go below zero. -/
def readBack {n : Nat} (a : Words n) (t c : Nat) : Option Nat :=
  if c ≤ t then a.val[t - c]? else none

/-- Checked store `a[t] = v`. -/
def setAtChecked {n : Nat} (a : Words n) (t v : Nat) : Option (Words n) :=
  if t < n then some (setAt a t v) else none

/-- Checked read `data[i]` of the byte vector. -/
def byteAtChecked (data : List Byte) (i : Nat) : Option Nat := (data[i]?).map Fin.val

/-- Checked `h[i] += v`. -/
def addInto (h : Words 8) (i v : Nat) : Option (Words 8) :=
  (readAt h i).bind fun x => setAtChecked h i (u32 (x + v))

/-- Checked body of the expansion loop of `transform`. -/
def expandStepChecked (w : Words 64) (t : Nat) : Option (Words 64) :=
  (readBack w t 2).bind fun x2 =>
  (readBack w t 7).bind fun x7 =>
  (readBack w t 15).bind fun x15 =>
  (readBack w t 16).bind fun x16 =>
  setAtChecked w t (u32 (u32 (u32 (omega1 x2 + x7) + omega0 x15) + x16))

/-- Checked body of the main loop of `transform`: reads `k[t]` and `w[t]`. -/
def roundStepChecked (w : Words 64) (r : Regs) (t : Nat) : Option Regs :=
  (k[t]?).bind fun kt =>
  (readAt w t).bind fun wt =>
  let T1 := u32 (u32 (u32 (u32 (r.h0 + sigma1 r.e) + ch r.e r.f r.g) + kt) + wt)
  let T2 := u32 (sigma0 r.a + maj r.a r.b r.c)
  some { h0 := r.g, g := r.f, f := r.e, e := u32 (r.d + T1),
         d := r.c, c := r.b, b := r.a, a := u32 (T1 + T2) }

/-- Checked reads `a = h[0]`, ..., `h0 = h[7]` of `transform`. -/
def readRegs (h : Words 8) : Option Regs :=
  (readAt h 0).bind fun a => (readAt h 1).bind fun b =>
  (readAt h 2).bind fun c => (readAt h 3).bind fun d =>
  (readAt h 4).bind fun e => (readAt h 5).bind fun f =>
  (readAt h 6).bind fun g => (readAt h 7).bind fun h0 =>
  some { a := a, b := b, c := c, d := d, e := e, f := f, g := g, h0 := h0 }

/-- Checked `h[0] += a; ...; h[7] += h0` of `transform`. -/
def addBack (h : Words 8) (r : Regs) : Option (Words 8) :=
  (addInto h 0 r.a).bind fun h0 => (addInto h0 1 r.b).bind fun h1 =>
  (addInto h1 2 r.c).bind fun h2 => (addInto h2 3 r.d).bind fun h3 =>
  (addInto h3 4 r.e).bind fun h4 => (addInto h4 5 r.f).bind fun h5 =>
  (addInto h5 6 r.g).bind fun h6 => addInto h6 7 r.h0

/-- Checked `transform`. -/
def transformChecked (s : SHA256) : Option SHA256 :=
  ((List.range' 16 48).foldlM expandStepChecked s.w).bind fun w =>
  (readRegs s.h).bind fun r0 =>
  ((List.range 64).foldlM (roundStepChecked w) r0).bind fun r =>
  (addBack s.h r).bind fun h7 =>
  some { s with h := h7, w := w }

/-- Checked packing expression: four checked reads of `data`. -/
def packWordChecked (data : List Byte) (p : Nat) : Option Nat :=
  (byteAtChecked data p).bind fun b0 =>
  (byteAtChecked data (p + 1)).bind fun b1 =>
  (byteAtChecked data (p + 2)).bind fun b2 =>
  (byteAtChecked data (p + 3)).bind fun b3 =>
  some (u32 ((b0 <<< 24) ||| (b1 <<< 16) ||| (b2 <<< 8) ||| b3))

/-- Checked packing loop. -/
def packBlockChecked (w : Words 64) (data : List Byte) (off : Nat) : Option (Words 64) :=
  (List.range 16).foldlM
    (fun w j => (packWordChecked data (off + j * 4)).bind fun v => setAtChecked w j v) w

/-- Checked body of the expansion loop written out inside `update`. -/
def expandInlineChecked (w : Words 64) (j : Nat) : Option (Words 64) :=
  (readBack w j 15).bind fun x15 =>
  (readBack w j 2).bind fun x2 =>
  (readBack w j 16).bind fun x16 =>
  (readBack w j 7).bind fun x7 =>
  let s0 := rotr x15 7 ^^^ rotr x15 18 ^^^ (x15 >>> 3)
  let s1 := rotr x2 17 ^^^ rotr x2 19 ^^^ (x2 >>> 10)
  setAtChecked w j (u32 (u32 (u32 (x16 + s0) + x7) + s1))

/-- Checked `data.erase(data.begin(), data.begin() + 64)`. -/
def eraseBlock (data : List Byte) : Option (List Byte) :=
  if 64 ≤ data.length then some (data.drop 64) else none

/-- Checked iteration of the `while` loop of `update`. -/
def drainStepChecked (s : SHA256) : Option SHA256 :=
  (packBlockChecked s.w s.data 0).bind fun w1 =>
  ((List.range' 16 48).foldlM expandInlineChecked w1).bind fun w2 =>
  (transformChecked { s with w := w2 }).bind fun s1 =>
  (eraseBlock s1.data).bind fun d => some { s1 with data := d }

/-- Checked `while` loop of `update`, on fuel. -/
def drainChecked : Nat → SHA256 → Option SHA256
  | 0, s => some s
  | fuel + 1, s =>
    if 64 ≤ s.data.length then (drainStepChecked s).bind (drainChecked fuel) else some s

/-- Checked `update`. -/
def updateChecked (s : SHA256) (msg : List Byte) : Option SHA256 :=
  let s1 := { s with data := s.data ++ msg }
  drainChecked s1.data.length s1

/-- Checked body of the processing loop of `finalize`. -/
def finalStepChecked (s : SHA256) (i : Nat) : Option SHA256 :=
  (packBlockChecked s.w s.data (i * 64)).bind fun w1 => transformChecked { s with w := w1 }

/-- Checked serialisation loop: reads `h[i]` for `i` in `0..7`. -/
def serializeChecked (h : Words 8) : Option (List Char) :=
  (List.range 8).foldlM
    (fun ss i => (readAt h i).bind fun x =>
      some ((ss ++ hex8 x) ++ (if i < 7 then "".data else []))) "0x ".data

/-- Checked `finalize`. -/
def finalizeChecked (s : SHA256) : Option String :=
  let s1 := { s with data := padded s.data }
  ((List.range (s1.data.length / 64)).foldlM finalStepChecked s1).bind fun s2 =>
  (serializeChecked s2.h).bind fun cs => some (String.mk cs)

/-- Checked `hash`. -/
def hashChecked (w0 : Words 64) (data : List Byte) : Option String :=
  (updateChecked (fresh w0) data).bind finalizeChecked

/-! ## The constants of the standard -/

/-- The first 64 prime numbers. -/
def primes64 : List Nat :=
  [2, 3, 5, 7, 11, 13, 17, 19, 23, 29, 31, 37, 41, 43, 47, 53, 59, 61, 67, 71, 73, 79, 83, 89, 97,
   101, 103, 107, 109, 113, 127, 131, 137, 139, 149, 151, 157, 163, 167, 173, 179, 181, 191, 193,
   197, 199, 211, 223, 227, 229, 233, 239, 241, 251, 257, 263, 269, 271, 277, 281, 283, 293, 307,
   311]

/-- The integer part of the `r`-th root of `p`: the number of `m` in `1..p`
with `m ^ r ≤ p`. -/
def iroot (r p : Nat) : Nat := ((List.range (p + 1)).filter (fun m => 0 < m ∧ m ^ r ≤ p)).length

/-- In integers: `x` is the first 32 bits of the fractional part of the `r`-th
root of `p`, that is `m + x / 2^32 ≤ p^(1/r) < m + (x + 1) / 2^32` with `m` the
integer part of the root. -/
def fracRootBits (r p x : Nat) : Bool :=
  decide (iroot r p ^ r ≤ p ∧ p < (iroot r p + 1) ^ r ∧
    (iroot r p * 2 ^ 32 + x) ^ r ≤ p * 2 ^ (32 * r) ∧
    p * 2 ^ (32 * r) < (iroot r p * 2 ^ 32 + x + 1) ^ r)

end SHA256

/-! ## Reference: SHA-256 as standardised in FIPS 180-4

Written from the standard (and section 4.1 of the specification), not from
the engine: padding with the bit length of the whole message, big-endian
parsing into 16-word blocks, message schedule, 64 rounds, add-back. The
constants `K` and the initial hash value are the tables of the standard, which
are the tables of the engine. -/

namespace FIPS

/-- Addition modulo `2^32`. -/
def add (x y : Nat) : Nat := (x + y) % 2 ^ 32

/-- Circular right shift of a 32-bit word. -/
def ROTR (n x : Nat) : Nat := ((x >>> n) ||| (x <<< (32 - n))) % 2 ^ 32

/-- Right shift of a 32-bit word. -/
def SHR (n x : Nat) : Nat := x >>> n

/-- The function `Ch(x, y, z) = (x ∧ y) ⊕ (¬x ∧ z)`. -/
def Ch (x y z : Nat) : Nat := (x &&& y) ^^^ ((2 ^ 32 - 1 - x) &&& z)

/-- The function `Maj(x, y, z) = (x ∧ y) ⊕ (x ∧ z) ⊕ (y ∧ z)`. -/
def Maj (x y z : Nat) : Nat := (x &&& y) ^^^ (x &&& z) ^^^ (y &&& z)

/-- The function `Σ0`. -/
def bigSigma0 (x : Nat) : Nat := ROTR 2 x ^^^ ROTR 13 x ^^^ ROTR 22 x

/-- The function `Σ1`. -/
def bigSigma1 (x : Nat) : Nat := ROTR 6 x ^^^ ROTR 11 x ^^^ ROTR 25 x

/-- The function `σ0`. -/
def smallSigma0 (x : Nat) : Nat := ROTR 7 x ^^^ ROTR 18 x ^^^ SHR 3 x

/-- The function `σ1`. -/
def smallSigma1 (x : Nat) : Nat := ROTR 17 x ^^^ ROTR 19 x ^^^ SHR 10 x

/-- The constants `K_0 .. K_63`. -/
def K : List Nat := SHA256.k

/-- The initial hash value `H(0)`. -/
def H0 : List Nat := SHA256.initH.val

/-- Padding: the byte `0x80`, the least number of zero bytes that brings the
length to 56 modulo 64, and the bit length of the message on 64 bits,
big-endian. -/
def pad (m : List (Fin 256)) : List (Fin 256) :=
  m ++ [0x80] ++ List.replicate ((119 - m.length % 64) % 64) 0 ++ SHA256.beBytes64 (8 * m.length)

/-- Word `i` of a block: four bytes, most significant first. -/
def word (block : List (Fin 256)) (i : Nat) : Nat :=
  (block.getD (4 * i) 0).val * 2 ^ 24 + (block.getD (4 * i + 1) 0).val * 2 ^ 16 +
  (block.getD (4 * i + 2) 0).val * 2 ^ 8 + (block.getD (4 * i + 3) 0).val

/-- Block `i` of the padded message, as 16 words. -/
def parse (p : List (Fin 256)) (i : Nat) : List Nat :=
  (List.range 16).map (word ((p.drop (64 * i)).take 64))

/-- One more word of the schedule:
`W_t = σ1(W_{t-2}) + W_{t-7} + σ0(W_{t-15}) + W_{t-16}` with `t` the number of
words so far. -/
def extend (W : List Nat) : List Nat :=
  let t := W.length
  W ++ [add (add (add (smallSigma1 (W.getD (t - 2) 0)) (W.getD (t - 7) 0))
          (smallSigma0 (W.getD (t - 15) 0))) (W.getD (t - 16) 0)]

/-- The message schedule `W_0 .. W_63` of a block of 16 words. -/
def schedule (M : List Nat) : List Nat := extend^[48] M

/-- Round `t` on the working variables `[a, b, c, d, e, f, g, h]`. -/
def round (W : List Nat) (v : List Nat) (t : Nat) : List Nat :=
  match v with
  | [a, b, c, d, e, f, g, h] =>
    let T1 := add (add (add (add h (bigSigma1 e)) (Ch e f g)) (K.getD t 0)) (W.getD t 0)
    let T2 := add (bigSigma0 a) (Maj a b c)
    [add T1 T2, a, b, c, add d T1, e, f, g]
  | _ => v

/-- The hash computation for one block: `H(i)` from `H(i-1)` and `M(i)`. -/
def compress (H : List Nat) (M : List Nat) : List Nat :=
  List.zipWith add ((List.range 64).foldl (round (schedule M)) H) H

/-- The eight words of the SHA-256 digest of `m`. -/
def digest (m : List (Fin 256)) : List Nat :=
  let p := pad m
  (List.range (p.length / 64)).foldl (fun H i => compress H (parse p i)) H0

/-- Hexadecimal digit of a value below 16, lowercase. -/
def hexChar (d : Nat) : Char := "0123456789abcdef".data.getD d '0'

/-- The eight hexadecimal digits of a 32-bit word, most significant first. -/
def hexWord (x : Nat) : List Char :=
  [7, 6, 5, 4, 3, 2, 1, 0].map (fun i => hexChar (x / 16 ^ i % 16))

/-- The digest of `m` as 64 lowercase hexadecimal digits. -/
def hexDigest (m : List (Fin 256)) : String :=
  String.mk ((digest m).map hexWord).flatten

end FIPS

namespace SHA256
/-! ## Fixed-size arrays -/

theorem Words.ext_val {n : Nat} {a b : Words n} (h : a.val = b.val) : a = b := by
  cases a; cases b; cases h; rfl

theorem get_setAt {n : Nat} (a : Words n) (t v i : Nat) :
    (setAt a t v).get i = if i = t ∧ t < n then v else a.get i := by
  unfold setAt Words.get
  simp only [List.getD_eq_getElem?_getD, List.getElem?_set, a.len]
  by_cases h1 : t = i
  · subst h1
    by_cases h2 : t < n
    · simp [h2]
    · have h3 : a.val[t]? = none := by
        rw [List.getElem?_eq_none_iff, a.len]; omega
      simp [h2, h3]
  · have h4 : ¬ (i = t) := fun e => h1 e.symm
    simp [h1, h4]

theorem Agree.eq {n : Nat} {a b : Words n} (h : Agree n a b) : a = b := by
  apply Words.ext_val
  apply List.ext_getElem (by rw [a.len, b.len])
  intro i h1 h2
  have h3 := h i (by rw [← a.len]; exact h1)
  unfold Words.get at h3
  rwa [List.getD_eq_getElem _ _ h1, List.getD_eq_getElem _ _ h2] at h3

/-- A loop `for t in s .. s+n-1: a[t] = g(a, t)` whose right-hand side reads
only entries below `t` fills the entries below `s + n` independently of what
the array held at and above `s`. -/
theorem fill_agree {n : Nat} (lo : Nat) (g : Words n → Nat → Nat)
    (hg : ∀ a b t, lo ≤ t → Agree t a b → g a t = g b t) :
    ∀ (c s : Nat) (a b : Words n), lo ≤ s → s + c ≤ n → Agree s a b →
      Agree (s + c) ((List.range' s c).foldl (fun w t => setAt w t (g w t)) a)
        ((List.range' s c).foldl (fun w t => setAt w t (g w t)) b) := by
  intro c
  induction c with
  | zero => intro s a b _ _ h; simpa using h
  | succ c ih =>
    intro s a b hlo hs h
    rw [List.range'_succ, List.foldl_cons, List.foldl_cons]
    have h1 : Agree (s + 1) (setAt a s (g a s)) (setAt b s (g b s)) := by
      intro i hi
      rw [get_setAt, get_setAt, hg a b s hlo h]
      by_cases e : i = s
      · have : s < n := by omega
        simp [e, this]
      · have : i < s := by omega
        simp [e, h i this]
    have h2 := ih (s + 1) _ _ (by omega) (by omega) h1
    have e : s + 1 + c = s + (c + 1) := by omega
    rwa [e] at h2


/-! ## The message schedule does not depend on the prior content of `w` -/

theorem get_congr_of_agree {n : Nat} {m : Nat} {a b : Words n} (h : Agree m a b)
    {i : Nat} (hi : i < m) : a.get i = b.get i := h i hi

theorem packBlock_agree (w1 w2 : Words 64) (data : List Byte) (off : Nat) :
    Agree 16 (packBlock w1 data off) (packBlock w2 data off) := by
  unfold packBlock
  rw [List.range_eq_range']
  have h := fill_agree 0 (fun (_ : Words 64) j => packWord data (off + j * 4))
    (fun _ _ _ _ _ => rfl) 16 0 w1 w2 (Nat.le_refl 0) (by decide) (fun i hi => absurd hi (by omega))
  simpa using h

theorem expandStep_reads (a b : Words 64) (t : Nat) (ht : 16 ≤ t) (h : Agree t a b) :
    u32 (u32 (u32 (omega1 (a.get (t - 2)) + a.get (t - 7)) + omega0 (a.get (t - 15)))
        + a.get (t - 16)) =
    u32 (u32 (u32 (omega1 (b.get (t - 2)) + b.get (t - 7)) + omega0 (b.get (t - 15)))
        + b.get (t - 16)) := by
  rw [h (t - 2) (by omega), h (t - 7) (by omega), h (t - 15) (by omega), h (t - 16) (by omega)]

theorem expand_agree (a b : Words 64) (h : Agree 16 a b) :
    (List.range' 16 48).foldl expandStep a = (List.range' 16 48).foldl expandStep b := by
  apply Agree.eq
  exact fill_agree 16 (fun (w : Words 64) t =>
      u32 (u32 (u32 (omega1 (w.get (t - 2)) + w.get (t - 7)) + omega0 (w.get (t - 15)))
        + w.get (t - 16)))
    (fun a b t ht hab => expandStep_reads a b t ht hab) 48 16 a b (Nat.le_refl 16) (by decide) h

theorem expandInline_reads (a b : Words 64) (j : Nat) (hj : 16 ≤ j) (h : Agree j a b) :
    u32 (u32 (u32 (a.get (j - 16)
        + (rotr (a.get (j - 15)) 7 ^^^ rotr (a.get (j - 15)) 18 ^^^ (a.get (j - 15) >>> 3)))
        + a.get (j - 7))
        + (rotr (a.get (j - 2)) 17 ^^^ rotr (a.get (j - 2)) 19 ^^^ (a.get (j - 2) >>> 10))) =
    u32 (u32 (u32 (b.get (j - 16)
        + (rotr (b.get (j - 15)) 7 ^^^ rotr (b.get (j - 15)) 18 ^^^ (b.get (j - 15) >>> 3)))
        + b.get (j - 7))
        + (rotr (b.get (j - 2)) 17 ^^^ rotr (b.get (j - 2)) 19 ^^^ (b.get (j - 2) >>> 10))) := by
  rw [h (j - 2) (by omega), h (j - 7) (by omega), h (j - 15) (by omega), h (j - 16) (by omega)]

theorem expandInline_agree (a b : Words 64) (h : Agree 16 a b) :
    (List.range' 16 48).foldl expandInline a = (List.range' 16 48).foldl expandInline b := by
  apply Agree.eq
  exact fill_agree 16 (fun (w : Words 64) j =>
      u32 (u32 (u32 (w.get (j - 16)
        + (rotr (w.get (j - 15)) 7 ^^^ rotr (w.get (j - 15)) 18 ^^^ (w.get (j - 15) >>> 3)))
        + w.get (j - 7))
        + (rotr (w.get (j - 2)) 17 ^^^ rotr (w.get (j - 2)) 19 ^^^ (w.get (j - 2) >>> 10))))
    (fun a b j hj hab => expandInline_reads a b j hj hab) 48 16 a b (Nat.le_refl 16) (by decide) h

theorem SameCore.refl (s : SHA256) : SameCore s s := ⟨rfl, rfl⟩

theorem drainStep_congr {s1 s2 : SHA256} (h : SameCore s1 s2) : drainStep s1 = drainStep s2 := by
  obtain ⟨h1, d1, w1⟩ := s1
  obtain ⟨h2, d2, w2⟩ := s2
  obtain ⟨hh, hd⟩ := h
  simp only at hh hd
  subst hh; subst hd
  unfold drainStep transform
  simp only
  rw [expandInline_agree _ _ (packBlock_agree w1 w2 d1 0)]

theorem finalStep_congr {s1 s2 : SHA256} (h : SameCore s1 s2) (i : Nat) :
    finalStep s1 i = finalStep s2 i := by
  obtain ⟨h1, d1, w1⟩ := s1
  obtain ⟨h2, d2, w2⟩ := s2
  obtain ⟨hh, hd⟩ := h
  simp only at hh hd
  subst hh; subst hd
  unfold finalStep transform
  simp only
  rw [expand_agree _ _ (packBlock_agree w1 w2 d1 (i * 64))]

theorem drain_congr (fuel : Nat) : ∀ {s1 s2 : SHA256}, SameCore s1 s2 →
    SameCore (drain fuel s1) (drain fuel s2) := by
  induction fuel with
  | zero => intro s1 s2 h; exact h
  | succ fuel ih =>
    intro s1 s2 h
    unfold drain
    rw [h.2, drainStep_congr h]
    split
    · exact SameCore.refl _
    · exact h

theorem update_congr {s1 s2 : SHA256} (h : SameCore s1 s2) (msg : List Byte) :
    SameCore (update s1 msg) (update s2 msg) := by
  unfold update
  simp only [h.2]
  exact drain_congr _ ⟨h.1, by simp [h.2]⟩

theorem foldl_finalStep_congr (l : List Nat) {s1 s2 : SHA256} (h : SameCore s1 s2) :
    SameCore (l.foldl finalStep s1) (l.foldl finalStep s2) := by
  cases l with
  | nil => exact h
  | cons i l =>
    rw [List.foldl_cons, List.foldl_cons, finalStep_congr h i]
    exact SameCore.refl _

theorem finalize_congr {s1 s2 : SHA256} (h : SameCore s1 s2) : finalize s1 = finalize s2 := by
  unfold finalize finalizeState
  simp only [h.2]
  have := @foldl_finalStep_congr (List.range ((padded s2.data).length / 64))
    { s1 with data := padded s2.data } { s2 with data := padded s2.data } ⟨h.1, rfl⟩
  rw [this.1]

theorem hash_congr (w0 w1 : Words 64) (b : List Byte) : hash w0 b = hash w1 b :=
  finalize_congr (@update_congr (fresh w0) (fresh w1) ⟨rfl, rfl⟩ b)

/-! ## The drain loop of `update` -/

theorem transform_data (s : SHA256) : (transform s).data = s.data := rfl

theorem drainStep_data (s : SHA256) : (drainStep s).data = s.data.drop 64 := rfl

theorem drain_of_lt (fuel : Nat) (s : SHA256) (h : s.data.length < 64) : drain fuel s = s := by
  cases fuel with
  | zero => rfl
  | succ fuel => unfold drain; rw [if_neg (by omega)]

theorem drain_of_ge (fuel : Nat) (s : SHA256) (h : 64 ≤ s.data.length) :
    drain (fuel + 1) s = drain fuel (drainStep s) := by
  rw [drain, if_pos h]

/-- With enough fuel the loop runs `drainStep` once per full block of the
buffer, `data.size() / 64` times, and stops because the buffer is short. -/
theorem drain_eq_iterate (fuel : Nat) : ∀ (s : SHA256), s.data.length / 64 ≤ fuel →
    drain fuel s = drainStep^[s.data.length / 64] s := by
  induction fuel with
  | zero =>
    intro s h
    have h0 : s.data.length / 64 = 0 := by omega
    rw [h0]; rfl
  | succ fuel ih =>
    intro s h
    by_cases hl : 64 ≤ s.data.length
    · rw [drain_of_ge fuel s hl]
      have e : s.data.length / 64 = (drainStep s).data.length / 64 + 1 := by
        rw [drainStep_data, List.length_drop]; omega
      rw [e, Function.iterate_succ_apply]
      exact ih (drainStep s) (by omega)
    · have h0 : s.data.length / 64 = 0 := by omega
      rw [h0, drain_of_lt _ s (by omega)]; rfl

theorem iterate_drainStep_data (c : Nat) : ∀ (s : SHA256),
    (drainStep^[c] s).data = s.data.drop (64 * c) := by
  induction c with
  | zero => intro s; simp
  | succ c ih =>
    intro s
    rw [Function.iterate_succ_apply, ih, drainStep_data, List.drop_drop]
    congr 1; omega

theorem update_eq_iterate (s : SHA256) (msg : List Byte) :
    update s msg
      = drainStep^[(s.data ++ msg).length / 64] { s with data := s.data ++ msg } := by
  unfold update
  exact drain_eq_iterate _ _ (Nat.div_le_self _ _)

theorem update_data (s : SHA256) (msg : List Byte) :
    (update s msg).data = (s.data ++ msg).drop (64 * ((s.data ++ msg).length / 64)) := by
  rw [update_eq_iterate, iterate_drainStep_data]

theorem update_data_length (s : SHA256) (msg : List Byte) :
    (update s msg).data.length = (s.data.length + msg.length) % 64 := by
  rw [update_data, List.length_drop, List.length_append]
  omega

theorem update_nil (s : SHA256) (h : s.data.length < 64) : update s [] = s := by
  unfold update
  simp only [List.append_nil]
  exact drain_of_lt _ s h

/-! ## Chunking -/

theorem byteAt_append_left (d m : List Byte) (i : Nat) (h : i < d.length) :
    byteAt (d ++ m) i = byteAt d i := by
  unfold byteAt
  rw [List.getD_append _ _ _ _ h]

theorem packWord_append_left (d m : List Byte) (p : Nat) (h : p + 3 < d.length) :
    packWord (d ++ m) p = packWord d p := by
  unfold packWord
  rw [byteAt_append_left d m p (by omega), byteAt_append_left d m (p + 1) (by omega),
    byteAt_append_left d m (p + 2) (by omega), byteAt_append_left d m (p + 3) (by omega)]

theorem packBlock_append_left (w : Words 64) (d m : List Byte) (h : 64 ≤ d.length) :
    packBlock w (d ++ m) 0 = packBlock w d 0 := by
  unfold packBlock
  apply List.foldl_ext
  intro a j hj
  rw [List.mem_range] at hj
  rw [packWord_append_left d m (0 + j * 4) (by omega)]

/-- Bytes behind the first block do not take part in a drain step. -/
theorem drainStep_append (s : SHA256) (m : List Byte) (h : 64 ≤ s.data.length) :
    drainStep { s with data := s.data ++ m }
      = { drainStep s with data := (drainStep s).data ++ m } := by
  unfold drainStep transform
  simp only [packBlock_append_left s.w s.data m h, List.drop_append_of_le_length h]

theorem drain_append (fuel : Nat) : ∀ (s : SHA256) (m : List Byte) (f1 f2 : Nat),
    s.data.length ≤ fuel → s.data.length ≤ f1 →
    (drain f1 s).data.length + m.length ≤ f2 →
    drain f2 { drain f1 s with data := (drain f1 s).data ++ m }
      = drain (f1 + m.length) { s with data := s.data ++ m } := by
  induction fuel with
  | zero =>
    intro s m f1 f2 h0 _ h2
    have hl : s.data.length < 64 := by omega
    rw [drain_of_lt f1 s hl] at h2 ⊢
    rw [drain_eq_iterate f2 _ (by simp only [List.length_append]; omega),
      drain_eq_iterate (f1 + m.length) _ (by simp only [List.length_append]; omega)]
  | succ fuel ih =>
    intro s m f1 f2 h0 h1 h2
    by_cases hl : 64 ≤ s.data.length
    · obtain ⟨g1, rfl⟩ : ∃ g1, f1 = g1 + 1 := ⟨f1 - 1, by omega⟩
      rw [drain_of_ge g1 s hl] at h2 ⊢
      have e : g1 + 1 + m.length = (g1 + m.length) + 1 := by omega
      rw [e, drain_of_ge _ _ (by simp only [List.length_append]; omega), drainStep_append s m hl]
      have hd : (drainStep s).data.length = s.data.length - 64 := by
        rw [drainStep_data, List.length_drop]
      exact ih (drainStep s) m g1 f2 (by omega) (by omega) h2
    · have hl2 : s.data.length < 64 := by omega
      rw [drain_of_lt f1 s hl2] at h2 ⊢
      rw [drain_eq_iterate f2 _ (by simp only [List.length_append]; omega),
        drain_eq_iterate (f1 + m.length) _ (by simp only [List.length_append]; omega)]

/-- Two successive `update` calls leave the engine in the state of one call
on the concatenation. -/
theorem update_update (s : SHA256) (a b : List Byte) :
    update (update s a) b = update s (a ++ b) := by
  unfold update
  have h := drain_append (s.data ++ a).length { s with data := s.data ++ a } b
    (s.data ++ a).length
    ((drain (s.data ++ a).length { s with data := s.data ++ a }).data ++ b).length
    (Nat.le_refl _) (Nat.le_refl _) (by simp only [List.length_append]; omega)
  simp only [List.append_assoc, List.length_append] at h ⊢
  rw [h]
  congr 1
  omega

theorem foldl_update (pieces : List (List Byte)) : ∀ (s : SHA256) (a : List Byte),
    pieces.foldl update (update s a) = update s (a ++ pieces.flatten) := by
  induction pieces with
  | nil => intro s a; simp
  | cons p ps ih =>
    intro s a
    rw [List.foldl_cons, update_update, ih, List.flatten_cons, List.append_assoc]

theorem foldl_update_fresh (w0 : Words 64) (pieces : List (List Byte)) :
    pieces.foldl update (fresh w0) = update (fresh w0) pieces.flatten := by
  have h := foldl_update pieces (fresh w0) []
  rw [update_nil (fresh w0) (by simp [fresh])] at h
  simpa using h

/-! ## Padding -/

theorem padLength_eq (L : Nat) : padLength L = 63 - (L + 8) % 64 := by
  unfold padLength u64
  omega

theorem lengthBytes_length (L : Nat) : (lengthBytes L).length = 8 := by
  unfold lengthBytes
  simp only [List.length_map, List.length_cons, List.length_nil]

theorem padMarker_length (data : List Byte) :
    (padMarker data).length = data.length + 1 + padLength data.length := by
  unfold padMarker
  simp only [List.length_append, List.length_replicate, List.length_cons, List.length_nil]

theorem padded_length (data : List Byte) :
    (padded data).length = data.length + 1 + padLength data.length + 8 := by
  unfold padded
  rw [List.length_append, padMarker_length, lengthBytes_length]

/-- The number of blocks the processing loop of `finalize` runs over, for a
buffer shorter than a block. -/
theorem padded_blocks (data : List Byte) (h : data.length < 64) :
    (padded data).length / 64 = if data.length + 9 ≤ 64 then 1 else 2 := by
  rw [padded_length, padLength_eq]
  split <;> omega

/-! ## Serialisation -/

theorem hexDigits_length_le (fuel : Nat) : ∀ (n : Nat) (acc : List Char),
    (hexDigits fuel n acc).length ≤ fuel + acc.length := by
  induction fuel with
  | zero => intro n acc; simp [hexDigits]
  | succ fuel ih =>
    intro n acc
    unfold hexDigits
    split
    · simp only [List.length_cons]; omega
    · have := ih (n / 16) (hexDigit (n % 16) :: acc)
      simp only [List.length_cons] at this
      omega

theorem hexDigit_isLowerHex (d : Nat) (h : d < 16) : isLowerHex (hexDigit d) := by
  unfold isLowerHex
  interval_cases d <;> decide

theorem hexDigits_isLowerHex (fuel : Nat) : ∀ (n : Nat) (acc : List Char),
    (∀ c ∈ acc, isLowerHex c) → ∀ c ∈ hexDigits fuel n acc, isLowerHex c := by
  induction fuel with
  | zero => intro n acc hacc; simpa [hexDigits] using hacc
  | succ fuel ih =>
    intro n acc hacc
    have hcons : ∀ c ∈ hexDigit (n % 16) :: acc, isLowerHex c := by
      intro c hc
      rcases List.mem_cons.1 hc with e | e
      · rw [e]; exact hexDigit_isLowerHex _ (Nat.mod_lt _ (by decide))
      · exact hacc c e
    unfold hexDigits
    split
    · exact hcons
    · exact ih _ _ hcons

theorem hex8_length (x : Nat) : (hex8 x).length = 8 := by
  unfold hex8
  have := hexDigits_length_le 8 (u32 x) []
  simp only [List.length_nil] at this
  simp only [List.length_append, List.length_replicate]
  omega

theorem hex8_isLowerHex (x : Nat) : ∀ c ∈ hex8 x, isLowerHex c := by
  intro c hc
  unfold hex8 at hc
  rcases List.mem_append.1 hc with e | e
  · rw [(List.mem_replicate.1 e).2]; unfold isLowerHex; decide
  · exact hexDigits_isLowerHex 8 (u32 x) [] (fun _ hx => absurd hx (List.not_mem_nil _)) c e

/-- The eight rendered words of the digest, without the leading `0x `. -/
theorem serialize_eq (h : Words 8) :
    serialize h = ['0', 'x', ' '] ++ (hex8 (h.get 0) ++ (hex8 (h.get 1) ++ (hex8 (h.get 2) ++
      (hex8 (h.get 3) ++ (hex8 (h.get 4) ++ (hex8 (h.get 5) ++ (hex8 (h.get 6) ++
      hex8 (h.get 7)))))))) := by
  unfold serialize
  rw [show List.range 8 = [0, 1, 2, 3, 4, 5, 6, 7] from rfl]
  simp only [List.foldl_cons, List.foldl_nil, ite_self, List.append_nil, List.append_assoc]

/-! ## Blocks compressed by `update` -/

theorem drainStep_h (s : SHA256) (h : 64 ≤ s.data.length) :
    (drainStep s).h = blockHash s.h (s.data.take 64) := by
  have e : s = { { s with data := s.data.take 64 } with
      data := ({ s with data := s.data.take 64 } : SHA256).data ++ s.data.drop 64 } := by
    simp only [List.take_append_drop]
  have hl : 64 ≤ ({ s with data := s.data.take 64 } : SHA256).data.length := by
    simp only [List.length_take]; omega
  rw [e, drainStep_append _ _ hl]
  simp only [List.take_append_drop]
  unfold blockHash
  rw [@drainStep_congr { s with data := s.data.take 64 }
    { h := s.h, data := s.data.take 64, w := zeroW } ⟨rfl, rfl⟩]

theorem iterate_drainStep_h (c : Nat) : ∀ (s : SHA256), 64 * c ≤ s.data.length →
    (drainStep^[c] s).h
      = (List.range c).foldl (fun h i => blockHash h ((s.data.drop (64 * i)).take 64)) s.h := by
  induction c with
  | zero => intro s _; rfl
  | succ c ih =>
    intro s hs
    have hf : (fun (h : Words 8) i => blockHash h (((drainStep s).data.drop (64 * i)).take 64))
        = (fun h i => blockHash h ((s.data.drop (64 * (i + 1))).take 64)) := by
      funext h i
      rw [drainStep_data, List.drop_drop, Nat.mul_succ, Nat.add_comm]
    rw [Function.iterate_succ_apply,
      ih (drainStep s) (by rw [drainStep_data, List.length_drop]; omega), hf,
      List.range_succ_eq_map, List.foldl_cons, List.foldl_map, drainStep_h s (by omega)]
    simp only [Nat.succ_eq_add_one, Nat.mul_zero, List.drop_zero]

theorem update_h (s : SHA256) (msg : List Byte) :
    (update s msg).h
      = (List.range ((s.data ++ msg).length / 64)).foldl
          (fun h i => blockHash h (((s.data ++ msg).drop (64 * i)).take 64)) s.h := by
  rw [update_eq_iterate]
  exact iterate_drainStep_h _ _ (Nat.mul_div_le _ _)

theorem drain_fuel_irrelevant (s : SHA256) (fuel : Nat) (h : s.data.length ≤ fuel) :
    drain fuel s = drain s.data.length s := by
  rw [drain_eq_iterate fuel s (Nat.le_trans (Nat.div_le_self _ _) h),
    drain_eq_iterate _ s (Nat.div_le_self _ _)]

/-! ## Entries below the start of a filling loop -/

theorem fill_below {n : Nat} (g : Words n → Nat → Nat) :
    ∀ (c s : Nat) (a : Words n) (i : Nat), i < s →
      ((List.range' s c).foldl (fun w t => setAt w t (g w t)) a).get i = a.get i := by
  intro c
  induction c with
  | zero => intro s a i _; rfl
  | succ c ih =>
    intro s a i hi
    rw [List.range'_succ, List.foldl_cons, ih (s + 1) _ i (by omega), get_setAt]
    rw [if_neg (by omega)]

theorem expandStep_below (a : Words 64) : Agree 16 ((List.range' 16 48).foldl expandStep a) a :=
  fun i hi => fill_below (fun (w : Words 64) t =>
      u32 (u32 (u32 (omega1 (w.get (t - 2)) + w.get (t - 7)) + omega0 (w.get (t - 15)))
        + w.get (t - 16))) 48 16 a i hi

theorem expandStep_idempotent (a : Words 64) :
    (List.range' 16 48).foldl expandStep ((List.range' 16 48).foldl expandStep a)
      = (List.range' 16 48).foldl expandStep a :=
  expand_agree _ _ (expandStep_below a)

theorem expandInline_eq_expandStep : expandInline = expandStep := by
  funext w j
  unfold expandInline expandStep omega0 omega1 u32
  simp only
  congr 1
  omega

theorem finalStep_data (s : SHA256) (i : Nat) : (finalStep s i).data = s.data := rfl

theorem foldl_finalStep_data (l : List Nat) : ∀ (s : SHA256),
    (l.foldl finalStep s).data = s.data := by
  induction l with
  | nil => intro s; rfl
  | cons i l ih => intro s; rw [List.foldl_cons, ih, finalStep_data]

theorem and_255 (x : Nat) : x &&& 0xff = x % 256 :=
  Nat.and_pow_two_sub_one_eq_mod x 8

theorem ofNat_mod_256 (x : Nat) : (Fin.ofNat (x % 256) : Byte) = Fin.ofNat x :=
  Fin.ext (Nat.mod_mod x 256)

theorem lengthBytes_eq (L : Nat) (h : L < 2 ^ 61) : lengthBytes L = beBytes64 (8 * L) := by
  unfold lengthBytes beBytes64 u64
  have e : L % 18446744073709551616 * 8 % 18446744073709551616 = 8 * L := by omega
  simp only [e, List.map_cons, List.map_nil, and_255, Nat.shiftRight_eq_div_pow, ofNat_mod_256,
    Nat.mul_zero, Nat.pow_zero, Nat.div_one]

theorem testBit_high {x j : Nat} (hx : x < 2 ^ 32) (hj : 32 ≤ j) : x.testBit j = false :=
  Nat.testBit_lt_two_pow (Nat.lt_of_lt_of_le hx (Nat.pow_le_pow_right (by decide) hj))

theorem rotr_lt (x n : Nat) (hx : x < 2 ^ 32) : rotr x n < 2 ^ 32 := by
  unfold rotr u32
  apply Nat.or_lt_two_pow
  · rw [Nat.shiftRight_eq_div_pow]
    exact Nat.lt_of_le_of_lt (Nat.div_le_self _ _) hx
  · exact Nat.mod_lt _ (by decide)

theorem rotr_testBit (x n i : Nat) (hx : x < 2 ^ 32) (hn : n < 32) (h0 : 0 < n) (hi : i < 32) :
    (rotr x n).testBit i = x.testBit ((i + n) % 32) := by
  unfold rotr u32
  rw [Nat.testBit_or, Nat.testBit_shiftRight,
    show (4294967296 : Nat) = 2 ^ 32 from rfl, Nat.testBit_mod_two_pow, Nat.testBit_shiftLeft]
  by_cases h : i + n < 32
  · have e1 : (i + n) % 32 = n + i := by omega
    have e2 : ¬ (i ≥ 32 - n) := by omega
    simp [e1, e2]
  · have e1 : (i + n) % 32 = i - (32 - n) := by omega
    have e2 : i ≥ 32 - n := by omega
    have e3 : x.testBit (n + i) = false := testBit_high hx (by omega)
    simp [e1, e2, e3, hi]

theorem rotr_rotr (x n : Nat) (hx : x < 2 ^ 32) (hn : n < 32) (h0 : 0 < n) :
    rotr (rotr x n) (32 - n) = x := by
  apply Nat.eq_of_testBit_eq
  intro i
  by_cases hi : i < 32
  · rw [rotr_testBit _ _ _ (rotr_lt x n hx) (by omega) (by omega) hi,
      rotr_testBit _ _ _ hx hn h0 (Nat.mod_lt _ (by decide))]
    congr 1
    omega
  · rw [testBit_high (rotr_lt _ _ (rotr_lt x n hx)) (by omega), testBit_high hx (by omega)]

theorem byteAt_lt (d : List Byte) (p : Nat) : byteAt d p < 256 := (d.getD p 0).isLt

theorem packWord_eq (d : List Byte) (p : Nat) :
    packWord d p = byteAt d p * 2 ^ 24 + byteAt d (p + 1) * 2 ^ 16
      + byteAt d (p + 2) * 2 ^ 8 + byteAt d (p + 3) := by
  unfold packWord u32
  have h0 := byteAt_lt d p
  have h1 := byteAt_lt d (p + 1)
  have h2 := byteAt_lt d (p + 2)
  have h3 := byteAt_lt d (p + 3)
  generalize byteAt d p = b0 at *
  generalize byteAt d (p + 1) = b1 at *
  generalize byteAt d (p + 2) = b2 at *
  generalize byteAt d (p + 3) = b3 at *
  simp only [Nat.shiftLeft_eq, Nat.or_assoc]
  have s1 : b2 * 2 ^ 8 ||| b3 = 2 ^ 8 * b2 + b3 := by
    rw [Nat.mul_comm]; exact (Nat.mul_add_lt_is_or (by omega) b2).symm
  have s2 : b1 * 2 ^ 16 ||| (2 ^ 8 * b2 + b3) = 2 ^ 16 * b1 + (2 ^ 8 * b2 + b3) := by
    rw [Nat.mul_comm]; exact (Nat.mul_add_lt_is_or (by omega) b1).symm
  have s3 : b0 * 2 ^ 24 ||| (2 ^ 16 * b1 + (2 ^ 8 * b2 + b3))
      = 2 ^ 24 * b0 + (2 ^ 16 * b1 + (2 ^ 8 * b2 + b3)) := by
    rw [Nat.mul_comm]; exact (Nat.mul_add_lt_is_or (by omega) b0).symm
  rw [s1, s2, s3]
  omega

theorem packWord_lt (d : List Byte) (p : Nat) : packWord d p < 2 ^ 32 :=
  Nat.mod_lt _ (by decide)

theorem fill_at {n : Nat} (f : Nat → Nat) :
    ∀ (c s : Nat) (a : Words n) (i : Nat), s ≤ i → i < s + c → s + c ≤ n →
      ((List.range' s c).foldl (fun w t => setAt w t (f t)) a).get i = f i := by
  intro c
  induction c with
  | zero => intro s a i h1 h2 _; omega
  | succ c ih =>
    intro s a i h1 h2 h3
    rw [List.range'_succ, List.foldl_cons]
    by_cases e : i = s
    · rw [fill_below (fun _ t => f t) c (s + 1) _ i (by omega), get_setAt, if_pos ⟨e, by omega⟩, e]
    · exact ih (s + 1) _ i (by omega) (by omega) (by omega)

theorem packBlock_get (w : Words 64) (d : List Byte) (off i : Nat) (hi : i < 16) :
    (packBlock w d off).get i = packWord d (off + i * 4) := by
  unfold packBlock
  rw [List.range_eq_range']
  exact fill_at (fun j => packWord d (off + j * 4)) 16 0 w i (Nat.zero_le _) (by omega) (by decide)

theorem bytes_of_words (d e : List Byte) (hd : d.length = 64) (he : e.length = 64)
    (h : ∀ i, i < 16 → packWord d (0 + i * 4) = packWord e (0 + i * 4)) : d = e := by
  apply List.ext_getElem (by rw [hd, he])
  intro p h1 h2
  have hp : p < 64 := by omega
  have hw := h (p / 4) (by omega)
  rw [packWord_eq, packWord_eq] at hw
  have b0 := byteAt_lt d (0 + p / 4 * 4)
  have b1 := byteAt_lt d (0 + p / 4 * 4 + 1)
  have b2 := byteAt_lt d (0 + p / 4 * 4 + 2)
  have b3 := byteAt_lt d (0 + p / 4 * 4 + 3)
  have c0 := byteAt_lt e (0 + p / 4 * 4)
  have c1 := byteAt_lt e (0 + p / 4 * 4 + 1)
  have c2 := byteAt_lt e (0 + p / 4 * 4 + 2)
  have c3 := byteAt_lt e (0 + p / 4 * 4 + 3)
  have key : byteAt d p = byteAt e p := by
    have hr : p = 0 + p / 4 * 4 ∨ p = 0 + p / 4 * 4 + 1 ∨ p = 0 + p / 4 * 4 + 2
        ∨ p = 0 + p / 4 * 4 + 3 := by omega
    rcases hr with hr | hr | hr | hr
    · rw [hr]; omega
    · rw [hr]; omega
    · rw [hr]; omega
    · rw [hr]; omega
  unfold byteAt at key
  rw [List.getD_eq_getElem _ _ h1, List.getD_eq_getElem _ _ h2] at key
  exact Fin.ext key

/-! ## Reading the digest back -/

theorem hexVal_hexDigit (d : Nat) (h : d < 16) : hexVal (hexDigit d) = d := by
  interval_cases d <;> decide

theorem parse_hexDigits (fuel : Nat) : ∀ (n : Nat) (acc : List Char), n < 16 ^ fuel →
    (hexDigits fuel n acc).foldl (fun a c => a * 16 + hexVal c) 0
      = acc.foldl (fun a c => a * 16 + hexVal c) n := by
  induction fuel with
  | zero =>
    intro n acc hn
    have h0 : n = 0 := by simpa using hn
    rw [h0]; rfl
  | succ fuel ih =>
    intro n acc hn
    unfold hexDigits
    split
    · rename_i hz
      rw [List.foldl_cons, hexVal_hexDigit _ (Nat.mod_lt _ (by decide))]
      congr 1
      omega
    · rw [ih (n / 16) _ (by rw [Nat.pow_succ] at hn; omega), List.foldl_cons,
        hexVal_hexDigit _ (Nat.mod_lt _ (by decide))]
      congr 1
      omega

theorem parse_zeros (c : Nat) (l : List Char) :
    (List.replicate c '0' ++ l).foldl (fun a c => a * 16 + hexVal c) 0
      = l.foldl (fun a c => a * 16 + hexVal c) 0 := by
  induction c with
  | zero => rfl
  | succ c ih =>
    rw [List.replicate_succ, List.cons_append, List.foldl_cons]
    exact ih

theorem parseHex_hex8 (x : Nat) : parseHex (hex8 x) = u32 x := by
  unfold parseHex hex8
  simp only
  rw [parse_zeros, parse_hexDigits 8 (u32 x) [] (Nat.mod_lt _ (by decide))]
  rfl

theorem take_eight (g r : List Char) (hg : g.length = 8) : (g ++ r).take 8 = g := by
  rw [← hg]; exact List.take_left _ _

theorem drop_eight (g r : List Char) (hg : g.length = 8) (c : Nat) :
    (g ++ r).drop (8 + c) = r.drop c := by
  rw [← hg]; exact List.drop_append c

theorem flatten_group : ∀ (gs : List (List Char)), (∀ g ∈ gs, g.length = 8) →
    ∀ i, i < gs.length → ((gs.flatten).drop (8 * i)).take 8 = gs.getD i [] := by
  intro gs
  induction gs with
  | nil => intro _ i hi; simp at hi
  | cons g gs ih =>
    intro hall i hi
    have hg : g.length = 8 := hall g (List.mem_cons_self _ _)
    rw [List.flatten_cons]
    cases i with
    | zero =>
      show ((g ++ gs.flatten).drop 0).take 8 = g
      rw [List.drop_zero, take_eight g _ hg]
    | succ j =>
      have e : 8 * (j + 1) = 8 + 8 * j := by omega
      rw [e, drop_eight g _ hg]
      show _ = gs.getD j []
      exact ih (fun x hx => hall x (List.mem_cons_of_mem _ hx)) j
        (by simp only [List.length_cons] at hi; omega)

theorem serialize_flatten (h : Words 8) :
    serialize h = ['0', 'x', ' '] ++ ((List.range 8).map (fun i => hex8 (h.get i))).flatten := by
  rw [serialize_eq]
  rw [show List.range 8 = [0, 1, 2, 3, 4, 5, 6, 7] from rfl]
  simp only [List.map_cons, List.map_nil, List.flatten_cons, List.flatten_nil, List.append_nil]

theorem digestGroup_serialize (h : Words 8) (i : Nat) (hi : i < 8) :
    digestGroup (serialize h) i = hex8 (h.get i) := by
  unfold digestGroup
  rw [serialize_flatten, show 3 + 8 * i = ['0', 'x', ' '].length + 8 * i from rfl,
    List.drop_append (8 * i), flatten_group _ (by
      intro g hg
      obtain ⟨j, _, rfl⟩ := List.mem_map.1 hg
      exact hex8_length _) i (by simp only [List.length_map, List.length_range]; exact hi)]
  rw [List.getD_eq_getElem _ _ (by simp only [List.length_map, List.length_range]; exact hi)]
  simp only [List.getElem_map, List.getElem_range]

theorem serialize_injective (h h' : Words 8) (hh : ∀ i, i < 8 → h.get i < 2 ^ 32)
    (hh' : ∀ i, i < 8 → h'.get i < 2 ^ 32) (e : serialize h = serialize h') : h = h' := by
  apply Agree.eq
  intro i hi
  have e1 := parseHex_hex8 (h.get i)
  have e2 := parseHex_hex8 (h'.get i)
  rw [← digestGroup_serialize h i hi] at e1
  rw [← digestGroup_serialize h' i hi, ← e, e1] at e2
  unfold u32 at e2
  have := hh i hi
  have := hh' i hi
  omega

/-! ## Every array access is in bounds -/

theorem foldlM_some {α β : Type} (f : β → α → β) (g : β → α → Option β) :
    ∀ (l : List α) (b : β), (∀ x ∈ l, ∀ c, g c x = some (f c x)) →
      l.foldlM g b = some (l.foldl f b) := by
  intro l
  induction l with
  | nil => intro b _; rfl
  | cons x l ih =>
    intro b h
    rw [List.foldlM_cons, h x (List.mem_cons_self _ _) b, List.foldl_cons]
    exact ih _ (fun y hy c => h y (List.mem_cons_of_mem _ hy) c)

theorem readAt_some {n : Nat} (a : Words n) (i : Nat) (h : i < n) :
    readAt a i = some (a.get i) := by
  unfold readAt Words.get
  have hi : i < a.val.length := by rw [a.len]; exact h
  rw [List.getElem?_eq_getElem hi, List.getD_eq_getElem _ _ hi]

theorem readBack_some {n : Nat} (a : Words n) (t c : Nat) (h1 : c ≤ t) (h2 : t - c < n) :
    readBack a t c = some (a.get (t - c)) := by
  unfold readBack
  rw [if_pos h1]
  exact readAt_some a (t - c) h2

theorem setAtChecked_some {n : Nat} (a : Words n) (t v : Nat) (h : t < n) :
    setAtChecked a t v = some (setAt a t v) := by
  unfold setAtChecked
  rw [if_pos h]

theorem byteAtChecked_some (d : List Byte) (i : Nat) (h : i < d.length) :
    byteAtChecked d i = some (byteAt d i) := by
  unfold byteAtChecked byteAt
  rw [List.getElem?_eq_getElem h, List.getD_eq_getElem _ _ h]
  rfl

theorem addInto_some (h : Words 8) (i v : Nat) (hi : i < 8) :
    addInto h i v = some (setAt h i (u32 (h.get i + v))) := by
  unfold addInto
  rw [readAt_some h i hi, Option.some_bind, setAtChecked_some _ _ _ hi]

theorem expandStepChecked_some (w : Words 64) (t : Nat) (h1 : 16 ≤ t) (h2 : t < 64) :
    expandStepChecked w t = some (expandStep w t) := by
  unfold expandStepChecked expandStep
  rw [readBack_some w t 2 (by omega) (by omega), readBack_some w t 7 (by omega) (by omega),
    readBack_some w t 15 (by omega) (by omega), readBack_some w t 16 (by omega) (by omega)]
  simp only [Option.some_bind]
  exact setAtChecked_some _ _ _ h2

theorem expandInlineChecked_some (w : Words 64) (j : Nat) (h1 : 16 ≤ j) (h2 : j < 64) :
    expandInlineChecked w j = some (expandInline w j) := by
  unfold expandInlineChecked expandInline
  rw [readBack_some w j 2 (by omega) (by omega), readBack_some w j 7 (by omega) (by omega),
    readBack_some w j 15 (by omega) (by omega), readBack_some w j 16 (by omega) (by omega)]
  simp only [Option.some_bind]
  exact setAtChecked_some _ _ _ h2

theorem k_some (t : Nat) (h : t < 64) : k[t]? = some (k.getD t 0) := by
  have hk : t < k.length := h
  rw [List.getElem?_eq_getElem hk, List.getD_eq_getElem _ _ hk]

theorem roundStepChecked_some (w : Words 64) (r : Regs) (t : Nat) (h : t < 64) :
    roundStepChecked w r t = some (roundStep w r t) := by
  unfold roundStepChecked roundStep
  rw [k_some t h, readAt_some w t h]
  rfl

theorem readRegs_some (h : Words 8) :
    readRegs h = some { a := h.get 0, b := h.get 1, c := h.get 2, d := h.get 3,
                        e := h.get 4, f := h.get 5, g := h.get 6, h0 := h.get 7 } := by
  unfold readRegs
  rw [readAt_some h 0 (by decide), readAt_some h 1 (by decide), readAt_some h 2 (by decide),
    readAt_some h 3 (by decide), readAt_some h 4 (by decide), readAt_some h 5 (by decide),
    readAt_some h 6 (by decide), readAt_some h 7 (by decide)]
  rfl

theorem expandFold_some (w : Words 64) :
    (List.range' 16 48).foldlM expandStepChecked w
      = some ((List.range' 16 48).foldl expandStep w) :=
  foldlM_some expandStep expandStepChecked _ w (fun t ht c => by
    rw [List.mem_range'_1] at ht
    exact expandStepChecked_some c t ht.1 (by omega))

theorem expandInlineFold_some (w : Words 64) :
    (List.range' 16 48).foldlM expandInlineChecked w
      = some ((List.range' 16 48).foldl expandInline w) :=
  foldlM_some expandInline expandInlineChecked _ w (fun t ht c => by
    rw [List.mem_range'_1] at ht
    exact expandInlineChecked_some c t ht.1 (by omega))

theorem roundFold_some (w : Words 64) (r : Regs) :
    (List.range 64).foldlM (roundStepChecked w) r
      = some ((List.range 64).foldl (roundStep w) r) :=
  foldlM_some (roundStep w) (roundStepChecked w) _ r (fun t ht c => by
    rw [List.mem_range] at ht
    exact roundStepChecked_some w c t ht)

theorem transformChecked_some (s : SHA256) : transformChecked s = some (transform s) := by
  unfold transformChecked transform addBack
  rw [expandFold_some, Option.some_bind, readRegs_some, Option.some_bind, roundFold_some,
    Option.some_bind]
  simp only [addInto_some, Option.some_bind, Nat.reduceLT]

theorem packWordChecked_some (d : List Byte) (p : Nat) (h : p + 3 < d.length) :
    packWordChecked d p = some (packWord d p) := by
  unfold packWordChecked packWord
  rw [byteAtChecked_some d p (by omega), byteAtChecked_some d (p + 1) (by omega),
    byteAtChecked_some d (p + 2) (by omega), byteAtChecked_some d (p + 3) h]
  rfl

theorem packBlockChecked_some (w : Words 64) (d : List Byte) (off : Nat)
    (h : off + 64 ≤ d.length) : packBlockChecked w d off = some (packBlock w d off) := by
  unfold packBlockChecked packBlock
  exact foldlM_some (fun w j => setAt w j (packWord d (off + j * 4))) _ _ w (fun j hj c => by
    rw [List.mem_range] at hj
    rw [packWordChecked_some d (off + j * 4) (by omega), Option.some_bind]
    exact setAtChecked_some _ _ _ (by omega))

theorem drainStepChecked_some (s : SHA256) (h : 64 ≤ s.data.length) :
    drainStepChecked s = some (drainStep s) := by
  unfold drainStepChecked drainStep
  rw [packBlockChecked_some s.w s.data 0 (by omega), Option.some_bind, expandInlineFold_some,
    Option.some_bind, transformChecked_some, Option.some_bind]
  simp only [transform_data]
  unfold eraseBlock
  rw [if_pos h]
  rfl

theorem drainChecked_some (fuel : Nat) : ∀ (s : SHA256),
    drainChecked fuel s = some (drain fuel s) := by
  induction fuel with
  | zero => intro s; rfl
  | succ fuel ih =>
    intro s
    unfold drainChecked drain
    split
    · rename_i h
      rw [drainStepChecked_some s h, Option.some_bind]
      exact ih _
    · rfl

theorem updateChecked_some (s : SHA256) (msg : List Byte) :
    updateChecked s msg = some (update s msg) :=
  drainChecked_some _ _

theorem finalStepChecked_some (s : SHA256) (i : Nat) (h : i * 64 + 64 ≤ s.data.length) :
    finalStepChecked s i = some (finalStep s i) := by
  unfold finalStepChecked finalStep
  rw [packBlockChecked_some s.w s.data (i * 64) h, Option.some_bind]
  exact transformChecked_some _

theorem finalFold_some (c : Nat) : ∀ (s : SHA256), c * 64 ≤ s.data.length →
    (List.range c).foldlM finalStepChecked s = some ((List.range c).foldl finalStep s) := by
  induction c with
  | zero => intro s _; rfl
  | succ c ih =>
    intro s h
    rw [List.range_succ, List.foldlM_append, ih s (by omega), List.foldl_append]
    simp only [Option.bind_eq_bind, Option.some_bind, List.foldlM_cons, List.foldlM_nil,
      List.foldl_cons, List.foldl_nil]
    rw [finalStepChecked_some _ c (by rw [foldl_finalStep_data]; omega)]
    rfl

theorem serializeChecked_some (h : Words 8) : serializeChecked h = some (serialize h) := by
  unfold serializeChecked serialize
  exact foldlM_some _ _ _ _ (fun i hi c => by
    rw [List.mem_range] at hi
    rw [readAt_some h i hi, Option.some_bind])

theorem finalizeChecked_some (s : SHA256) : finalizeChecked s = some (finalize s) := by
  unfold finalizeChecked finalize finalizeState
  simp only
  rw [finalFold_some _ _ (Nat.div_mul_le_self _ _), Option.some_bind, serializeChecked_some,
    Option.some_bind]

/-! ## The constant tables -/

theorem prime_iff_mem (n : Nat) (h : n < 312) : Nat.Prime n ↔ n ∈ primes64 := by
  interval_cases n <;> first
    | exact ⟨fun _ => by decide!, fun _ => by norm_num⟩
    | exact ⟨fun hp => absurd hp (by norm_num), fun hm => absurd hm (by decide!)⟩

theorem primes64_filter_mem :
    (List.range 312).filter (fun n => decide (n ∈ primes64)) = primes64 := by
  decide!

theorem primes_below_312 :
    (List.range 312).filter (fun n => decide (Nat.Prime n)) = primes64 := by
  have c : (List.range 312).filter (fun n => decide (Nat.Prime n))
      = (List.range 312).filter (fun n => decide (n ∈ primes64)) :=
    List.filter_congr (fun n hn => decide_eq_decide.2 (prime_iff_mem n (List.mem_range.1 hn)))
  rw [c]
  exact primes64_filter_mem

theorem range_filter_lt (N : Nat) : ∀ n, n ≤ N →
    (List.range N).filter (fun a => decide (a < n)) = List.range n := by
  induction N with
  | zero =>
    intro n h
    have e : n = 0 := by omega
    subst e; rfl
  | succ N ih =>
    intro n h
    by_cases e : n = N + 1
    · subst e
      rw [List.filter_eq_self]
      intro a ha
      exact decide_eq_true (List.mem_range.1 ha)
    · rw [List.range_succ, List.filter_append, ih n (by omega)]
      have : ¬ (N < n) := by omega
      simp [this]

theorem primes64_rank : ∀ i : Fin 64,
    (primes64.filter (fun q => decide (q < primes64.getD i 0))).length = i ∧
    primes64.getD i 0 ∈ primes64 ∧ primes64.getD i 0 < 312 := by
  decide!

theorem count_of_rank (p c : Nat) (h3 : p < 312)
    (h1 : (primes64.filter (fun q => decide (q < p))).length = c) :
    Nat.count Nat.Prime p = c := by
  unfold Nat.count
  rw [List.countP_eq_length_filter, ← range_filter_lt 312 _ (Nat.le_of_lt h3), List.filter_filter]
  rw [← primes_below_312, List.filter_filter] at h1
  rw [← h1]
  congr 1
  apply List.filter_congr
  intro a _
  exact Bool.and_comm _ _

theorem count_prime (i : Fin 64) : Nat.count Nat.Prime (primes64.getD i 0) = i :=
  count_of_rank _ _ (primes64_rank i).2.2 (primes64_rank i).1

theorem nth_of_count (p c : Nat) (hp : Nat.Prime p) (hc : Nat.count Nat.Prime p = c) :
    Nat.nth Nat.Prime c = p := by
  rw [← hc]
  exact Nat.nth_count hp

theorem nth_prime_eq (i : Fin 64) : Nat.nth Nat.Prime i = primes64.getD i 0 :=
  nth_of_count _ _ ((prime_iff_mem _ (primes64_rank i).2.2).2 (primes64_rank i).2.1)
    (count_prime i)

theorem k_table : ∀ i : Fin 64, fracRootBits 3 (primes64.getD i 0) (k.getD i 0) = true := by
  decide!

theorem initH_table : ∀ i : Fin 8, fracRootBits 2 (primes64.getD i 0) (initH.get i) = true := by
  decide!

/-- From the integer bounds to the fractional part of the real root. -/
theorem floor_fract_of_bounds (x : ℝ) (hx : 0 ≤ x) (r p m c : Nat) (hr : r ≠ 0)
    (hxp : x ^ r = (p : ℝ)) (h1 : m ^ r ≤ p) (h2 : p < (m + 1) ^ r)
    (h3 : (m * 2 ^ 32 + c) ^ r ≤ p * 2 ^ (32 * r))
    (h4 : p * 2 ^ (32 * r) < (m * 2 ^ 32 + c + 1) ^ r) :
    ⌊Int.fract x * 2 ^ 32⌋₊ = c := by
  have a1 : (m : ℝ) ≤ x := by
    apply le_of_pow_le_pow_left₀ hr hx
    rw [hxp]; exact_mod_cast h1
  have a2 : x < (m : ℝ) + 1 := by
    apply lt_of_pow_lt_pow_left₀ r (by positivity)
    rw [hxp]; exact_mod_cast h2
  have hfl : ⌊x⌋ = (m : ℤ) := by
    rw [Int.floor_eq_iff]
    exact ⟨by exact_mod_cast a1, by exact_mod_cast a2⟩
  have hfr : Int.fract x = x - m := by
    rw [← Int.self_sub_floor, hfl]; norm_cast
  have hy : (x * 2 ^ 32) ^ r = (p : ℝ) * 2 ^ (32 * r) := by
    rw [mul_pow, hxp, ← pow_mul]
  have b1 : ((m : ℝ) * 2 ^ 32 + c) ≤ x * 2 ^ 32 := by
    apply le_of_pow_le_pow_left₀ hr (by positivity)
    rw [hy]; exact_mod_cast h3
  have b2 : x * 2 ^ 32 < (m : ℝ) * 2 ^ 32 + c + 1 := by
    apply lt_of_pow_lt_pow_left₀ r (by positivity)
    rw [hy]; exact_mod_cast h4
  rw [Nat.floor_eq_iff (by rw [hfr]; nlinarith), hfr]
  constructor
  · linarith
  · linarith

theorem rpow_third_cube (p : Nat) : ((p : ℝ) ^ ((1 : ℝ) / 3)) ^ 3 = (p : ℝ) := by
  rw [← Real.rpow_natCast, ← Real.rpow_mul (Nat.cast_nonneg p)]
  norm_num

/-! ## The engine against the reference: words -/

theorem or_mod_right (a b : Nat) (ha : a < 2 ^ 32) :
    (a ||| b) % 2 ^ 32 = a ||| b % 2 ^ 32 := by
  apply Nat.eq_of_testBit_eq
  intro i
  rw [Nat.testBit_mod_two_pow, Nat.testBit_or, Nat.testBit_or, Nat.testBit_mod_two_pow]
  by_cases hi : i < 32
  · simp [hi]
  · rw [testBit_high ha (by omega)]
    simp [hi]

theorem rotr_eq_ROTR (x n : Nat) (hx : x < 2 ^ 32) : rotr x n = FIPS.ROTR n x := by
  unfold rotr FIPS.ROTR u32
  rw [show (4294967296 : Nat) = 2 ^ 32 from rfl, or_mod_right _ _ (by
    rw [Nat.shiftRight_eq_div_pow]
    exact Nat.lt_of_le_of_lt (Nat.div_le_self _ _) hx)]

theorem not_eq_sub (x : Nat) (hx : x < 2 ^ 32) : u32 (4294967295 ^^^ x) = 2 ^ 32 - 1 - x := by
  have e : 4294967295 ^^^ x = 2 ^ 32 - (x + 1) := by
    apply Nat.eq_of_testBit_eq
    intro i
    rw [Nat.testBit_xor, Nat.testBit_two_pow_sub_succ hx,
      show (4294967295 : Nat) = 2 ^ 32 - 1 from rfl, Nat.testBit_two_pow_sub_one]
    by_cases hi : i < 32
    · simp [hi]
    · rw [testBit_high hx (by omega)]
      simp [hi]
  unfold u32
  rw [e]
  omega

theorem ch_eq_Ch (x y z : Nat) (hx : x < 2 ^ 32) : ch x y z = FIPS.Ch x y z := by
  unfold ch FIPS.Ch
  rw [not_eq_sub x hx]

theorem maj_eq_Maj (x y z : Nat) : maj x y z = FIPS.Maj x y z := rfl

theorem sigma0_eq (x : Nat) (hx : x < 2 ^ 32) : sigma0 x = FIPS.bigSigma0 x := by
  unfold sigma0 FIPS.bigSigma0
  rw [rotr_eq_ROTR x 2 hx, rotr_eq_ROTR x 13 hx, rotr_eq_ROTR x 22 hx]

theorem sigma1_eq (x : Nat) (hx : x < 2 ^ 32) : sigma1 x = FIPS.bigSigma1 x := by
  unfold sigma1 FIPS.bigSigma1
  rw [rotr_eq_ROTR x 6 hx, rotr_eq_ROTR x 11 hx, rotr_eq_ROTR x 25 hx]

theorem omega0_eq (x : Nat) (hx : x < 2 ^ 32) : omega0 x = FIPS.smallSigma0 x := by
  unfold omega0 FIPS.smallSigma0 FIPS.SHR
  rw [rotr_eq_ROTR x 7 hx, rotr_eq_ROTR x 18 hx]

theorem omega1_eq (x : Nat) (hx : x < 2 ^ 32) : omega1 x = FIPS.smallSigma1 x := by
  unfold omega1 FIPS.smallSigma1 FIPS.SHR
  rw [rotr_eq_ROTR x 17 hx, rotr_eq_ROTR x 19 hx]

theorem u32_eq_add (x y : Nat) : u32 (x + y) = FIPS.add x y := rfl

theorem u32_lt (x : Nat) : u32 x < 2 ^ 32 := Nat.mod_lt _ (by decide)

/-! ## The engine against the reference: message schedule -/

theorem expandStep_get (w : Words 64) (t i : Nat) (ht : t < 64) :
    (expandStep w t).get i = if i = t then
      u32 (u32 (u32 (omega1 (w.get (t - 2)) + w.get (t - 7)) + omega0 (w.get (t - 15)))
        + w.get (t - 16)) else w.get i := by
  unfold expandStep
  rw [get_setAt]
  by_cases e : i = t
  · rw [if_pos ⟨e, ht⟩, if_pos e]
  · rw [if_neg (fun h => e h.1), if_neg e]

theorem getD_append_one (l : List Nat) (v : Nat) (i : Nat) :
    (l ++ [v]).getD i 0 = if i = l.length then v else l.getD i 0 := by
  by_cases h1 : i < l.length
  · rw [List.getD_append _ _ _ _ h1, if_neg (by omega)]
  · by_cases h2 : i = l.length
    · rw [if_pos h2, h2, List.getD_eq_getElem?_getD, List.getElem?_append_right (Nat.le_refl _)]
      simp
    · have h3 : (l ++ [v]).length ≤ i := by
        simp only [List.length_append, List.length_cons, List.length_nil]
        omega
      have h4 : l.length ≤ i := by omega
      rw [if_neg h2, List.getD_eq_getElem?_getD, List.getD_eq_getElem?_getD,
        List.getElem?_eq_none h3, List.getElem?_eq_none h4]

theorem extend_length (L : List Nat) : (FIPS.extend L).length = L.length + 1 := by
  unfold FIPS.extend
  simp only [List.length_append, List.length_cons, List.length_nil]

theorem extend_getD (L : List Nat) (i : Nat) :
    (FIPS.extend L).getD i 0 = if i = L.length then
      FIPS.add (FIPS.add (FIPS.add (FIPS.smallSigma1 (L.getD (L.length - 2) 0))
        (L.getD (L.length - 7) 0)) (FIPS.smallSigma0 (L.getD (L.length - 15) 0)))
        (L.getD (L.length - 16) 0)
    else L.getD i 0 := by
  unfold FIPS.extend
  exact getD_append_one _ _ _

/-- After `c` steps of the expansion loop the array holds, below `16 + c`,
the first `16 + c` words of the message schedule of the standard. -/
theorem schedule_refines (w : Words 64) (M : List Nat) (hM : M.length = 16)
    (h0 : ∀ i, i < 16 → w.get i = M.getD i 0 ∧ w.get i < 2 ^ 32) :
    ∀ c, c ≤ 48 →
      (FIPS.extend^[c] M).length = 16 + c ∧
      ∀ i, i < 16 + c → ((List.range' 16 c).foldl expandStep w).get i
        = (FIPS.extend^[c] M).getD i 0 ∧
        ((List.range' 16 c).foldl expandStep w).get i < 2 ^ 32 := by
  intro c
  induction c with
  | zero =>
    intro _
    exact ⟨hM, fun i hi => h0 i hi⟩
  | succ c ih =>
    intro hc
    obtain ⟨hl, hw⟩ := ih (by omega)
    rw [List.range'_concat, List.foldl_append, Function.iterate_succ_apply']
    refine ⟨by rw [extend_length, hl]; omega, ?_⟩
    intro i hi
    simp only [List.foldl_cons, List.foldl_nil, Nat.one_mul]
    rw [expandStep_get _ _ _ (by omega), extend_getD, hl]
    by_cases e : i = 16 + c
    · rw [if_pos e, if_pos e]
      have r2 := hw (16 + c - 2) (by omega)
      have r7 := hw (16 + c - 7) (by omega)
      have r15 := hw (16 + c - 15) (by omega)
      have r16 := hw (16 + c - 16) (by omega)
      refine ⟨?_, u32_lt _⟩
      rw [omega1_eq _ r2.2, omega0_eq _ r15.2, r2.1, r7.1, r15.1, r16.1]
      rfl
    · rw [if_neg e, if_neg e]
      exact hw i (by omega)

/-! ## The engine against the reference: rounds and add-back -/

theorem round_refines (W : Words 64) (L : List Nat)
    (hWL : ∀ t, t < 64 → W.get t = L.getD t 0) (r : Regs) (hg : r.Good) (t : Nat)
    (ht : t < 64) :
    (roundStep W r t).toList = FIPS.round L r.toList t ∧ (roundStep W r t).Good := by
  obtain ⟨ga, gb, gc, gd, ge, gf, gg, gh⟩ := hg
  constructor
  · unfold roundStep FIPS.round Regs.toList
    simp only
    rw [sigma1_eq _ ge, ch_eq_Ch _ _ _ ge, sigma0_eq _ ga, maj_eq_Maj, hWL t ht]
    rfl
  · exact ⟨u32_lt _, ga, gb, gc, u32_lt _, ge, gf, gg⟩

theorem rounds_refine (W : Words 64) (L : List Nat)
    (hWL : ∀ t, t < 64 → W.get t = L.getD t 0) :
    ∀ (l : List Nat), (∀ t ∈ l, t < 64) → ∀ (r : Regs), r.Good →
      (l.foldl (roundStep W) r).toList = l.foldl (FIPS.round L) r.toList ∧
      (l.foldl (roundStep W) r).Good := by
  intro l
  induction l with
  | nil => intro _ r hg; exact ⟨rfl, hg⟩
  | cons t l ih =>
    intro hl r hg
    have h1 := round_refines W L hWL r hg t (hl t (List.mem_cons_self _ _))
    rw [List.foldl_cons, List.foldl_cons, ← h1.1]
    exact ih (fun x hx => hl x (List.mem_cons_of_mem _ hx)) _ h1.2

theorem words8_cases (h : Words 8) :
    ∃ x0 x1 x2 x3 x4 x5 x6 x7, h.val = [x0, x1, x2, x3, x4, x5, x6, x7] := by
  obtain ⟨l, hl⟩ := h
  rcases l with _ | ⟨x0, l⟩
  · simp at hl
  rcases l with _ | ⟨x1, l⟩
  · simp at hl
  rcases l with _ | ⟨x2, l⟩
  · simp at hl
  rcases l with _ | ⟨x3, l⟩
  · simp at hl
  rcases l with _ | ⟨x4, l⟩
  · simp at hl
  rcases l with _ | ⟨x5, l⟩
  · simp at hl
  rcases l with _ | ⟨x6, l⟩
  · simp at hl
  rcases l with _ | ⟨x7, l⟩
  · simp at hl
  rcases l with _ | ⟨x8, l⟩
  · exact ⟨x0, x1, x2, x3, x4, x5, x6, x7, rfl⟩
  · simp at hl

theorem good_of_forall_mem {n : Nat} (a : Words n) (h : ∀ x ∈ a.val, x < 2 ^ 32) : a.Good := by
  intro i
  unfold Words.get
  rw [List.getD_eq_getElem?_getD]
  by_cases hi : i < a.val.length
  · rw [List.getElem?_eq_getElem hi]
    exact h _ (List.getElem_mem _)
  · rw [List.getElem?_eq_none (by omega)]
    show (0 : Nat) < 2 ^ 32
    decide

theorem good_mem {n : Nat} (a : Words n) (h : a.Good) : ∀ x ∈ a.val, x < 2 ^ 32 := by
  intro x hx
  obtain ⟨i, hi, rfl⟩ := List.getElem_of_mem hx
  have := h i
  unfold Words.get at this
  rwa [List.getD_eq_getElem _ _ hi] at this

theorem transform_h (s : SHA256) :
    (transform s).h = addWords s.h ((List.range 64).foldl
      (roundStep ((List.range' 16 48).foldl expandStep s.w))
      (Regs.mk (s.h.get 0) (s.h.get 1) (s.h.get 2) (s.h.get 3)
        (s.h.get 4) (s.h.get 5) (s.h.get 6) (s.h.get 7))) := rfl

theorem addWords_val (h : Words 8) (r : Regs) (x0 x1 x2 x3 x4 x5 x6 x7 : Nat)
    (hx : h.val = [x0, x1, x2, x3, x4, x5, x6, x7]) :
    (addWords h r).val = [u32 (x0 + r.a), u32 (x1 + r.b), u32 (x2 + r.c), u32 (x3 + r.d),
      u32 (x4 + r.e), u32 (x5 + r.f), u32 (x6 + r.g), u32 (x7 + r.h0)] := by
  obtain ⟨l, hl⟩ := h
  simp only at hx
  subst hx
  rfl

/-- The state left by `transform` when `w[0..15]` holds the block `M`: the
hash computation of the standard for that block. -/
theorem transform_refines (s : SHA256) (M : List Nat) (hM : M.length = 16)
    (h0 : ∀ i, i < 16 → s.w.get i = M.getD i 0 ∧ s.w.get i < 2 ^ 32) (hg : s.h.Good) :
    (transform s).h.val = FIPS.compress s.h.val M ∧ (transform s).h.Good := by
  obtain ⟨hl, hw⟩ := schedule_refines s.w M hM h0 48 (Nat.le_refl _)
  obtain ⟨x0, x1, x2, x3, x4, x5, x6, x7, hx⟩ := words8_cases s.h
  have g0 : ∀ i, s.h.get i = [x0, x1, x2, x3, x4, x5, x6, x7].getD i 0 := by
    intro i; unfold Words.get; rw [hx]
  have hr0 : (Regs.mk (s.h.get 0) (s.h.get 1) (s.h.get 2) (s.h.get 3)
      (s.h.get 4) (s.h.get 5) (s.h.get 6) (s.h.get 7)).toList = s.h.val := by
    rw [hx]
    simp only [Regs.toList, g0]
    rfl
  have hgood0 : (Regs.mk (s.h.get 0) (s.h.get 1) (s.h.get 2) (s.h.get 3)
      (s.h.get 4) (s.h.get 5) (s.h.get 6) (s.h.get 7)).Good :=
    ⟨hg 0, hg 1, hg 2, hg 3, hg 4, hg 5, hg 6, hg 7⟩
  have hr := rounds_refine ((List.range' 16 48).foldl expandStep s.w) (FIPS.schedule M)
    (fun t ht => (hw t (by omega)).1) (List.range 64)
    (fun t ht => List.mem_range.1 ht) _ hgood0
  rw [hr0] at hr
  have hval : (transform s).h.val = FIPS.compress s.h.val M := by
    unfold FIPS.compress
    rw [← hr.1, transform_h, addWords_val _ _ x0 x1 x2 x3 x4 x5 x6 x7 hx, hx]
    generalize (List.range 64).foldl (roundStep ((List.range' 16 48).foldl expandStep s.w))
      (Regs.mk (s.h.get 0) (s.h.get 1) (s.h.get 2) (s.h.get 3)
        (s.h.get 4) (s.h.get 5) (s.h.get 6) (s.h.get 7)) = R
    simp only [Regs.toList, List.zipWith_cons_cons, List.zipWith_nil_left, ← u32_eq_add,
      Nat.add_comm]
  refine ⟨hval, ?_⟩
  apply good_of_forall_mem
  rw [hval]
  unfold FIPS.compress
  intro x hx'
  rw [List.mem_iff_getElem] at hx'
  obtain ⟨i, hi, rfl⟩ := hx'
  rw [List.getElem_zipWith]
  exact Nat.mod_lt _ (by decide)

/-! ## The engine against the reference: blocks, padding, rendering -/

theorem getD_take_drop (p : List Byte) (n q : Nat) (hq : q < 64) :
    ((p.drop n).take 64).getD q 0 = p.getD (n + q) 0 := by
  rw [List.getD_eq_getElem?_getD, List.getD_eq_getElem?_getD, List.getElem?_take_of_lt hq,
    List.getElem?_drop]

theorem parse_length (p : List Byte) (i : Nat) : (FIPS.parse p i).length = 16 := by
  unfold FIPS.parse
  rw [List.length_map, List.length_range]

theorem parse_getD (p : List Byte) (i j : Nat) (hj : j < 16) :
    (FIPS.parse p i).getD j 0 = packWord p (i * 64 + j * 4) := by
  unfold FIPS.parse
  have hl : j < ((List.range 16).map (FIPS.word ((p.drop (64 * i)).take 64))).length := by
    rw [List.length_map, List.length_range]; exact hj
  rw [List.getD_eq_getElem _ _ hl, List.getElem_map, List.getElem_range, packWord_eq]
  unfold FIPS.word byteAt
  rw [getD_take_drop p _ _ (by omega), getD_take_drop p _ _ (by omega),
    getD_take_drop p _ _ (by omega), getD_take_drop p _ _ (by omega)]
  have e0 : 64 * i + 4 * j = i * 64 + j * 4 := by omega
  have e1 : 64 * i + (4 * j + 1) = i * 64 + j * 4 + 1 := by omega
  have e2 : 64 * i + (4 * j + 2) = i * 64 + j * 4 + 2 := by omega
  have e3 : 64 * i + (4 * j + 3) = i * 64 + j * 4 + 3 := by omega
  rw [e0, e1, e2, e3]

theorem finalStep_refines (s : SHA256) (i : Nat) (hg : s.h.Good) :
    (finalStep s i).h.val = FIPS.compress s.h.val (FIPS.parse s.data i) ∧
    (finalStep s i).h.Good := by
  unfold finalStep
  exact transform_refines { s with w := packBlock s.w s.data (i * 64) } (FIPS.parse s.data i)
    (parse_length _ _) (fun j hj => by
      show (packBlock s.w s.data (i * 64)).get j = _ ∧ (packBlock s.w s.data (i * 64)).get j < _
      rw [packBlock_get _ _ _ _ hj, parse_getD _ _ _ hj]
      exact ⟨rfl, packWord_lt _ _⟩) hg

theorem finalFold_refines (c : Nat) : ∀ (s : SHA256), s.h.Good →
    ((List.range c).foldl finalStep s).h.val
      = (List.range c).foldl (fun H i => FIPS.compress H (FIPS.parse s.data i)) s.h.val ∧
    ((List.range c).foldl finalStep s).h.Good := by
  induction c with
  | zero => intro s hg; exact ⟨rfl, hg⟩
  | succ c ih =>
    intro s hg
    obtain ⟨h1, h2⟩ := ih s hg
    rw [List.range_succ, List.foldl_append, List.foldl_append]
    simp only [List.foldl_cons, List.foldl_nil]
    have h3 := finalStep_refines ((List.range c).foldl finalStep s) c h2
    rw [foldl_finalStep_data, h1] at h3
    exact h3

theorem initH_good : initH.Good := by
  apply good_of_forall_mem
  decide

theorem padded_eq_pad (b : List Byte) (h : b.length < 2 ^ 61) : padded b = FIPS.pad b := by
  unfold padded padMarker FIPS.pad
  rw [lengthBytes_eq _ h, padLength_eq]
  congr 3
  omega

theorem hexDigit_eq_hexChar (d : Nat) (h : d < 16) : hexDigit d = FIPS.hexChar d := by
  interval_cases d <;> rfl

theorem nib_succ (g : Nat → Char) (f : Nat) :
    (List.range (f + 1)).reverse.map g
      = (List.range f).reverse.map (fun i => g (i + 1)) ++ [g 0] := by
  rw [List.range_succ_eq_map, List.reverse_cons, List.map_append, ← List.map_reverse, List.map_map]
  rfl

theorem nib_zero (f : Nat) :
    (List.range f).reverse.map (fun i => hexDigit (0 / 16 ^ i % 16)) = List.replicate f '0' := by
  apply List.eq_replicate_iff.2
  constructor
  · simp
  · intro c hc
    obtain ⟨i, _, rfl⟩ := List.mem_map.1 hc
    simp only [Nat.zero_div, Nat.zero_mod]
    rfl

theorem nib_step (f n : Nat) :
    (List.range (f + 1)).reverse.map (fun i => hexDigit (n / 16 ^ i % 16))
      = (List.range f).reverse.map (fun i => hexDigit (n / 16 / 16 ^ i % 16))
        ++ [hexDigit (n % 16)] := by
  rw [nib_succ]
  congr 1
  · apply List.map_congr_left
    intro i _
    rw [Nat.pow_succ, Nat.mul_comm, Nat.div_div_eq_div_mul]
  · simp

/-- The digits written by the stream, left-padded to the fuel, are the
nibbles of the number from the most significant one. -/
theorem hexDigits_nibbles (f : Nat) : ∀ (n : Nat) (acc : List Char), n < 16 ^ f →
    ∃ z : List Char, hexDigits f n acc = z ++ acc ∧ z.length ≤ f ∧
      List.replicate (f - z.length) '0' ++ z
        = (List.range f).reverse.map (fun i => hexDigit (n / 16 ^ i % 16)) := by
  induction f with
  | zero =>
    intro n acc hn
    exact ⟨[], rfl, Nat.le_refl _, rfl⟩
  | succ f ih =>
    intro n acc hn
    unfold hexDigits
    split
    · rename_i hz
      refine ⟨[hexDigit (n % 16)], rfl, by simp, ?_⟩
      rw [nib_step, hz, nib_zero]
      simp
    · obtain ⟨z, hz1, hz2, hz3⟩ := ih (n / 16) (hexDigit (n % 16) :: acc)
        (by rw [Nat.pow_succ] at hn; omega)
      refine ⟨z ++ [hexDigit (n % 16)], by rw [hz1]; simp, by simp; omega, ?_⟩
      rw [nib_step, ← hz3]
      simp only [List.length_append, List.length_cons, List.length_nil, List.append_assoc]
      congr 2
      omega

theorem hex8_eq_hexWord (x : Nat) (hx : x < 2 ^ 32) : hex8 x = FIPS.hexWord x := by
  unfold hex8 FIPS.hexWord
  have hu : u32 x = x := Nat.mod_eq_of_lt hx
  rw [hu]
  obtain ⟨z, hz1, hz2, hz3⟩ := hexDigits_nibbles 8 x [] (by omega)
  rw [List.append_nil] at hz1
  simp only
  rw [hz1, hz3, show (List.range 8).reverse = [7, 6, 5, 4, 3, 2, 1, 0] from rfl]
  apply List.map_congr_left
  intro i _
  exact hexDigit_eq_hexChar _ (Nat.mod_lt _ (by decide))

theorem serialize_eq_hexWords (h : Words 8) (hg : h.Good) :
    serialize h = "0x ".data ++ (h.val.map FIPS.hexWord).flatten := by
  rw [serialize_flatten]
  obtain ⟨x0, x1, x2, x3, x4, x5, x6, x7, hx⟩ := words8_cases h
  have g0 : ∀ i, h.get i = [x0, x1, x2, x3, x4, x5, x6, x7].getD i 0 := by
    intro i; unfold Words.get; rw [hx]
  have e : (List.range 8).map (fun i => hex8 (h.get i)) = h.val.map FIPS.hexWord := by
    rw [show List.range 8 = [0, 1, 2, 3, 4, 5, 6, 7] from rfl, hx]
    simp only [List.map_cons, List.map_nil]
    rw [hex8_eq_hexWord _ (hg 0), hex8_eq_hexWord _ (hg 1), hex8_eq_hexWord _ (hg 2),
      hex8_eq_hexWord _ (hg 3), hex8_eq_hexWord _ (hg 4), hex8_eq_hexWord _ (hg 5),
      hex8_eq_hexWord _ (hg 6), hex8_eq_hexWord _ (hg 7)]
    simp only [g0]
    rfl
  rw [e]

/-- The digest of `finalize` from a state with a 32-bit hash state: the
hash computation of the standard run over the blocks of the padded buffer. -/
theorem finalize_refines (s : SHA256) (hg : s.h.Good) :
    finalize s = "0x " ++ String.mk (((List.range ((padded s.data).length / 64)).foldl
      (fun H i => FIPS.compress H (FIPS.parse (padded s.data) i)) s.h.val).map
        FIPS.hexWord).flatten := by
  unfold finalize finalizeState
  simp only
  obtain ⟨h1, h2⟩ := finalFold_refines ((padded s.data).length / 64)
    { s with data := padded s.data } hg
  rw [serialize_eq_hexWords _ h2, h1]
  rfl

theorem hash_refines (w0 : Words 64) (b : List Byte) (h : b.length < 64) :
    hash w0 b = "0x " ++ FIPS.hexDigest b := by
  unfold hash
  have hu : update (fresh w0) b = { fresh w0 with data := b } := by
    unfold update
    exact drain_of_lt _ _ h
  rw [hu, finalize_refines _ initH_good]
  show "0x " ++ String.mk (((List.range ((padded b).length / 64)).foldl
      (fun H i => FIPS.compress H (FIPS.parse (padded b) i)) initH.val).map
        FIPS.hexWord).flatten = _
  rw [padded_eq_pad b (Nat.lt_of_lt_of_le h (by decide))]
  rfl

/-! ## Evaluations -/

theorem hash_a64_value :
    hash zeroW a64 = "0x 04cef6a882b6544e0417af1704f1e98cc71c13b2e7b67ca2ff0eb3a35424bfe7" := by
  decide!

theorem hexDigest_a64_value :
    FIPS.hexDigest a64 = "ffe054fe7ae0cb6dc65c3af9b61d5209f439851db43d0ba5997337df154668eb" := by
  decide!

theorem blockHash_a64_value :
    (blockHash initH a64).val
      = [3747330076, 3894281766, 4215646356, 1339297585,
         2992531478, 3604257217, 2878359849, 6512230] := by
  decide!

/-! ## The hash state after reuse -/

/-- C1. Chunk-invariance: a fresh engine fed the pieces `b1, ..., bn` by
successive `update` calls (pieces may be empty) and then finalised returns the
same digest string as a fresh engine fed their concatenation by one `update`,
whatever the two engines held in `w` at construction. -/
theorem chunk_invariance (w0 w1 : Words 64) (pieces : List (List Byte)) :
    finalize (pieces.foldl update (fresh w0)) = finalize (update (fresh w1) pieces.flatten) := by
  rw [foldl_update_fresh]
  exact hash_congr w0 w1 pieces.flatten

/-- C2. On the 64-byte input `a64` the engine returns
`0x 04cef6a8...`, which is not `0x ` followed by the FIPS 180-4 digest
`ffe054fe...` of that input. -/
theorem hash_a64_differs_from_standard (w0 : Words 64) :
    hash w0 a64 = "0x 04cef6a882b6544e0417af1704f1e98cc71c13b2e7b67ca2ff0eb3a35424bfe7" ∧
    FIPS.hexDigest a64 = "ffe054fe7ae0cb6dc65c3af9b61d5209f439851db43d0ba5997337df154668eb" ∧
    hash w0 a64 ≠ "0x " ++ FIPS.hexDigest a64 := by
  rw [hash_congr w0 zeroW a64, hash_a64_value, hexDigest_a64_value]
  exact ⟨rfl, rfl, by decide!⟩

/-- C3. After `update` has ingested the 64 bytes of `a64`, the buffer is empty
and the length field that `finalize` appends is eight zero bytes, not the
big-endian encoding of `8 * 64 = 512`. -/
theorem length_field_a64 (w0 : Words 64) :
    (update (fresh w0) a64).data = [] ∧
    lengthBytes (update (fresh w0) a64).data.length = [0, 0, 0, 0, 0, 0, 0, 0] ∧
    (padded (update (fresh w0) a64).data).drop 56 = [0, 0, 0, 0, 0, 0, 0, 0] ∧
    beBytes64 (8 * a64.length) = [0, 0, 0, 0, 0, 0, 2, 0] := by
  have h : (update (fresh w0) a64).data = [] := by
    rw [update_data]
    show List.drop (64 * ((([] : List Byte) ++ a64).length / 64)) ([] ++ a64) = []
    decide
  rw [h]
  decide

/-- C4. Fixed output shape: for every input (the empty one included) the
digest has exactly 67 characters, the characters `0x ` followed by a body of
exactly 64 characters, each of them one of `0-9a-f`. -/
theorem hash_shape (w0 : Words 64) (b : List Byte) :
    (hash w0 b).length = 67 ∧
    ∃ body : List Char, (hash w0 b).data = ['0', 'x', ' '] ++ body ∧ body.length = 64 ∧
      ∀ c ∈ body, isLowerHex c := by
  unfold hash finalize
  generalize (finalizeState (update (fresh w0) b)).h = h
  have hs := serialize_eq h
  refine ⟨?_, _, hs, ?_, ?_⟩
  · show (serialize h).length = 67
    rw [hs]
    simp only [List.length_append, hex8_length, List.length_cons, List.length_nil]
  · simp only [List.length_append, hex8_length]
  · intro c hc
    simp only [List.mem_append] at hc
    rcases hc with hc | hc | hc | hc | hc | hc | hc | hc <;> exact hex8_isLowerHex _ c hc

/-- C5. Known vector: the digest of the five bytes of `hello` is `0x ` followed
by `2cf24dba5fb0a30e26e83b2ac5b9e29e1b161e5c1fa7425e73043362938b9824`. -/
theorem hash_hello (w0 : Words 64) :
    hash w0 hello = "0x " ++ "2cf24dba5fb0a30e26e83b2ac5b9e29e1b161e5c1fa7425e73043362938b9824" := by
  rw [hash_congr w0 zeroW hello]
  decide!

/-- C6, as stated, fails: the digest of the empty input is not `0x ` followed
by the 63 characters `e3b0...b85` listed for it. -/
theorem hash_empty_not_listed :
    hash zeroW [] ≠ "0x " ++ "e3b0c44298fc1c149afbf4c8996fb92427ae41e4649b934ca495991b7852b85" := by
  decide!

/-- C6, amended. Known vector: the digest of the empty input is `0x ` followed
by the 64 characters
`e3b0c44298fc1c149afbf4c8996fb92427ae41e4649b934ca495991b7852b855`. -/
theorem hash_empty (w0 : Words 64) :
    hash w0 [] = "0x " ++ "e3b0c44298fc1c149afbf4c8996fb92427ae41e4649b934ca495991b7852b855" := by
  rw [hash_congr w0 zeroW []]
  decide!

/-- C7. Pending-buffer invariant: after `update` the buffer holds fewer than
64 bytes, namely the total modulo 64, from every engine state; hence it holds
fewer than 64 bytes after any sequence of `update` calls on a fresh engine. -/
theorem pending_buffer_invariant (s : SHA256) (msg : List Byte) (w0 : Words 64)
    (msgs : List (List Byte)) :
    (update s msg).data.length = (s.data.length + msg.length) % 64 ∧
    (update s msg).data.length < 64 ∧
    (msgs.foldl update (fresh w0)).data.length < 64 := by
  refine ⟨update_data_length s msg, ?_, ?_⟩
  · rw [update_data_length]; omega
  · rw [foldl_update_fresh, update_data_length]; omega

/-- C8. Padding layout: for a buffer `t` (of at most 63 bytes when `finalize`
follows `update`; the statement holds for every length), what `finalize`
builds before the length field is `t`, the byte `0x80` and a run `z` of zero
bytes; `padLength - 1` does not wrap (`z` has `63 - (L + 8) % 64` bytes); the
length is then 56 modulo 64 and no shorter run of zeros gives that; with the
8 length bytes the total is a multiple of 64. -/
theorem padding_layout (t : List Byte) :
    ∃ z : List Byte, padMarker t = t ++ [0x80] ++ z ∧ (∀ x ∈ z, x = 0) ∧
      z.length + 1 = 64 - (t.length + 8) % 64 ∧
      (padMarker t).length % 64 = 56 ∧
      (∀ n, n < z.length → (t.length + 1 + n) % 64 ≠ 56) ∧
      padded t = padMarker t ++ lengthBytes t.length ∧ (lengthBytes t.length).length = 8 ∧
      (padded t).length % 64 = 0 := by
  refine ⟨List.replicate (padLength t.length) 0, rfl, ?_, ?_, ?_, ?_, rfl,
    lengthBytes_length _, ?_⟩
  · intro x hx; exact (List.mem_replicate.1 hx).2
  · rw [List.length_replicate, padLength_eq]; omega
  · rw [padMarker_length, padLength_eq]; omega
  · intro n hn
    rw [List.length_replicate, padLength_eq] at hn
    omega
  · rw [padded_length, padLength_eq]; omega

/-- C9. Boundary correctness: after `update` on an input of `n` bytes the
buffer holds `n % 64` bytes, and the processing loop of `finalize` runs over
exactly one block when `n % 64 + 9 ≤ 64` and over exactly two otherwise: the
final state is one, respectively two, applications of the block step. Inputs
of 55 and 64 bytes give one final block, inputs of 56, 57 and 63 bytes two,
and an input of 65 bytes one final block after the single drain step of
`update`. -/
theorem final_block_count (w0 : Words 64) (b : List Byte) :
    (update (fresh w0) b).data.length = b.length % 64 ∧
    (padded (update (fresh w0) b).data).length / 64
      = (if b.length % 64 + 9 ≤ 64 then 1 else 2) ∧
    finalizeState (update (fresh w0) b)
      = (if b.length % 64 + 9 ≤ 64 then
          finalStep { update (fresh w0) b with data := padded (update (fresh w0) b).data } 0
        else
          finalStep (finalStep
            { update (fresh w0) b with data := padded (update (fresh w0) b).data } 0) 1) ∧
    (b.length = 55 ∨ b.length = 64 → (padded (update (fresh w0) b).data).length / 64 = 1) ∧
    (b.length = 56 ∨ b.length = 57 ∨ b.length = 63 →
      (padded (update (fresh w0) b).data).length / 64 = 2) ∧
    (b.length = 65 → update (fresh w0) b = drainStep { fresh w0 with data := b } ∧
      (padded (update (fresh w0) b).data).length / 64 = 1) := by
  have hl : (update (fresh w0) b).data.length = b.length % 64 := by
    rw [update_data_length]; simp [fresh]
  have hlt : (update (fresh w0) b).data.length < 64 := by rw [hl]; omega
  have hc := padded_blocks _ hlt
  rw [hl] at hc
  refine ⟨hl, hc, ?_, ?_, ?_, ?_⟩
  · unfold finalizeState
    simp only [hc]
    split
    · rfl
    · rfl
  · intro h; rw [hc]; rcases h with h | h <;> rw [h] <;> rfl
  · intro h; rw [hc]; rcases h with h | h | h <;> rw [h] <;> rfl
  · intro h
    refine ⟨?_, by rw [hc, h]; rfl⟩
    rw [update_eq_iterate]
    have e : ((fresh w0).data ++ b).length / 64 = 1 := by
      simp only [fresh, List.nil_append, h]
    rw [e]
    simp [fresh]

/-- C9 at an input of 55 zero bytes: one final block. -/
theorem final_block_count_witness :
    (padded (update (fresh zeroW) (List.replicate 55 0)).data).length / 64 = 1 :=
  (final_block_count zeroW (List.replicate 55 0)).2.2.2.1 (Or.inl (by decide))

/-- C10. Determinism: the digest of `b` is a function of `b` alone; it is the
same for any two prior contents `w0`, `w1` of the message-schedule array,
which the constructor leaves uninitialised. -/
theorem hash_deterministic (w0 w1 : Words 64) (b : List Byte) : hash w0 b = hash w1 b :=
  hash_congr w0 w1 b

/-- C12. Drain behaviour of `update`: from every engine state with buffer
`p` and for every `msg`, the loop runs the drain step `(|p| + |msg|) / 64`
times and stops with the loop condition false, whatever larger fuel it is
given; the hash state is the block processing folded, in order, over the
consecutive 64-byte blocks of `p ++ msg`, and the buffer left is the suffix of
`p ++ msg` behind them, of `(|p| + |msg|) % 64` bytes. -/
theorem update_drains_blocks (s : SHA256) (msg : List Byte) (fuel : Nat) :
    update s msg
      = drainStep^[(s.data ++ msg).length / 64] { s with data := s.data ++ msg } ∧
    (update s msg).h
      = (List.range ((s.data ++ msg).length / 64)).foldl
          (fun h i => blockHash h (((s.data ++ msg).drop (64 * i)).take 64)) s.h ∧
    (update s msg).data = (s.data ++ msg).drop (64 * ((s.data ++ msg).length / 64)) ∧
    (update s msg).data.length = (s.data.length + msg.length) % 64 ∧
    (update s msg).data.length < 64 ∧
    drain ((s.data ++ msg).length + fuel) { s with data := s.data ++ msg } = update s msg := by
  refine ⟨update_eq_iterate s msg, update_h s msg, update_data s msg, update_data_length s msg,
    ?_, ?_⟩
  · rw [update_data_length]; omega
  · exact drain_fuel_irrelevant { s with data := s.data ++ msg } _ (Nat.le_add_right _ _)

/-- C13. Block processing is the same in both paths: for every hash state,
every buffer and every prior content of `w`, packing `w[0..15]`, expanding
`w[16..63]` inline and calling `transform()` (as `update` does) gives the same
engine state, hash state and message schedule included, as packing and calling
`transform()` only (as `finalize` does); the inline expansion is the expansion
of `transform`, and expanding twice is expanding once. -/
theorem block_processing_same (s : SHA256) :
    transform { s with w := (List.range' 16 48).foldl expandInline (packBlock s.w s.data 0) }
      = finalStep s 0 ∧
    drainStep s = { finalStep s 0 with data := s.data.drop 64 } ∧
    (∀ a : Words 64, (List.range' 16 48).foldl expandInline a
      = (List.range' 16 48).foldl expandStep a) ∧
    (∀ a : Words 64,
      (List.range' 16 48).foldl expandStep ((List.range' 16 48).foldl expandStep a)
        = (List.range' 16 48).foldl expandStep a) := by
  have h1 : transform
      { s with w := (List.range' 16 48).foldl expandInline (packBlock s.w s.data 0) }
      = finalStep s 0 := by
    unfold finalStep transform
    simp only [expandInline_eq_expandStep, expandStep_idempotent, Nat.zero_mul]
  refine ⟨h1, ?_, ?_, expandStep_idempotent⟩
  · show ({ transform
        { s with w := (List.range' 16 48).foldl expandInline (packBlock s.w s.data 0) } with
        data := s.data.drop 64 } : SHA256) = _
    rw [h1]
  · intro a; rw [expandInline_eq_expandStep]

/-- C14. Big-endian packing: for every buffer `d`, every prior content of `w`
and every `i` in `0..15`, the schedule word `w[i]` left by the packing loop is
`d[4i] * 2^24 + d[4i+1] * 2^16 + d[4i+2] * 2^8 + d[4i+3]`, a value below
`2^32` (the leading byte may be `0x80` or more); two 64-byte blocks with the
same 16 words are the same block. -/
theorem packing_big_endian (w : Words 64) (d e : List Byte) (hd : d.length = 64)
    (he : e.length = 64) :
    (∀ i, i < 16 → (packBlock w d 0).get i
      = byteAt d (4 * i) * 2 ^ 24 + byteAt d (4 * i + 1) * 2 ^ 16
        + byteAt d (4 * i + 2) * 2 ^ 8 + byteAt d (4 * i + 3)) ∧
    (∀ i, i < 16 → (packBlock w d 0).get i < 2 ^ 32) ∧
    ((∀ i, i < 16 → (packBlock w d 0).get i = (packBlock w e 0).get i) → d = e) := by
  refine ⟨?_, ?_, ?_⟩
  · intro i hi
    rw [packBlock_get w d 0 i hi, packWord_eq]
    have e1 : 0 + i * 4 = 4 * i := by omega
    rw [e1]
  · intro i hi
    rw [packBlock_get w d 0 i hi]
    exact packWord_lt _ _
  · intro h
    apply bytes_of_words d e hd he
    intro i hi
    rw [← packBlock_get w d 0 i hi, ← packBlock_get w e 0 i hi]
    exact h i hi

/-- C14 at the block of 64 bytes `0xff` (every leading byte is above `0x80`)
and zeros in `w`: word 0 is `0xffffffff`. -/
theorem packing_big_endian_witness :
    (packBlock zeroW (List.replicate 64 255) 0).get 0
      = byteAt (List.replicate 64 255) (4 * 0) * 2 ^ 24
        + byteAt (List.replicate 64 255) (4 * 0 + 1) * 2 ^ 16
        + byteAt (List.replicate 64 255) (4 * 0 + 2) * 2 ^ 8
        + byteAt (List.replicate 64 255) (4 * 0 + 3) :=
  (packing_big_endian zeroW (List.replicate 64 255) (List.replicate 64 255)
    (by decide) (by decide)).1 0 (by decide)

/-- C15. Digest serialisation is faithful: for a hash state `h` of 32-bit
words the digest is `0x `, a blank and eight groups of 8 characters `0-9a-f`,
67 characters in all, and reading group `i` in base 16 gives back `h[i]`;
hence two distinct hash states have distinct digests. -/
theorem serialization_faithful (h h' : Words 8) (hh : ∀ i, i < 8 → h.get i < 2 ^ 32)
    (hh' : ∀ i, i < 8 → h'.get i < 2 ^ 32) :
    (serialize h).take 3 = ['0', 'x', ' '] ∧
    (serialize h).length = 67 ∧
    (∀ i, i < 8 → (digestGroup (serialize h) i).length = 8 ∧
      (∀ c ∈ digestGroup (serialize h) i, isLowerHex c) ∧
      parseHex (digestGroup (serialize h) i) = h.get i) ∧
    (h ≠ h' → String.mk (serialize h) ≠ String.mk (serialize h')) := by
  refine ⟨?_, ?_, ?_, ?_⟩
  · rw [serialize_flatten]; rfl
  · rw [serialize_eq]
    simp only [List.length_append, hex8_length, List.length_cons, List.length_nil]
  · intro i hi
    rw [digestGroup_serialize h i hi]
    refine ⟨hex8_length _, hex8_isLowerHex _, ?_⟩
    rw [parseHex_hex8]
    exact Nat.mod_eq_of_lt (hh i hi)
  · intro hne e
    exact hne (serialize_injective h h' hh hh' (congrArg String.data e))

/-- C15 at the initial hash values and at the hash state after one block of
64 bytes `'a'`: both digests read back to their words, and they differ. -/
theorem serialization_faithful_witness :
    (serialize initH).take 3 = ['0', 'x', ' '] ∧
    (serialize initH).length = 67 ∧
    (∀ i, i < 8 → (digestGroup (serialize initH) i).length = 8 ∧
      (∀ c ∈ digestGroup (serialize initH) i, isLowerHex c) ∧
      parseHex (digestGroup (serialize initH) i) = initH.get i) ∧
    (initH ≠ blockHash initH a64 →
      String.mk (serialize initH) ≠ String.mk (serialize (blockHash initH a64))) :=
  serialization_faithful initH (blockHash initH a64)
    (by intro i hi; interval_cases i <;> decide)
    (by
      intro i hi
      unfold Words.get
      rw [blockHash_a64_value]
      interval_cases i <;> decide)

/-- C16. The constant tables are those of the standard: for every `i` in
`0..63`, `k[i]` is the integer part of `2^32` times the fractional part of the
cube root of the `(i+1)`-th prime, and for every `i` in `0..7` the initial
`h[i]` is the integer part of `2^32` times the fractional part of the square
root of the `(i+1)`-th prime. -/
theorem constants_are_standard :
    (∀ i : Fin 64,
      ⌊Int.fract (((Nat.nth Nat.Prime i : ℕ) : ℝ) ^ ((1 : ℝ) / 3)) * 2 ^ 32⌋₊ = k.getD i 0) ∧
    (∀ i : Fin 8,
      ⌊Int.fract (Real.sqrt ((Nat.nth Nat.Prime i : ℕ) : ℝ)) * 2 ^ 32⌋₊ = initH.get i) := by
  constructor
  · intro i
    rw [nth_prime_eq i]
    have h := of_decide_eq_true (k_table i)
    exact floor_fract_of_bounds _ (Real.rpow_nonneg (Nat.cast_nonneg _) _) 3 _ _ _ (by decide)
      (rpow_third_cube _) h.1 h.2.1 h.2.2.1 h.2.2.2
  · intro i
    rw [nth_prime_eq ⟨i.val, by omega⟩]
    have h := of_decide_eq_true (initH_table i)
    exact floor_fract_of_bounds _ (Real.sqrt_nonneg _) 2 _ _ _ (by decide)
      (Real.sq_sqrt (Nat.cast_nonneg _)) h.1 h.2.1 h.2.2.1 h.2.2.2

/-- C17. For every input `b` of fewer than 64 bytes, whatever `w` held, the
digest of the engine is `0x ` followed by the 64 lowercase hexadecimal digits
of the SHA-256 digest of `b` as FIPS 180-4 defines it: padding with the
64-bit bit length of `b`, message schedule, 64 rounds, add-back modulo
`2^32`. -/
theorem hash_short_is_standard (w0 : Words 64) (b : List Byte) (h : b.length < 64) :
    hash w0 b = "0x " ++ FIPS.hexDigest b :=
  hash_refines w0 b h

/-- C17 at the five bytes of `hello`. -/
theorem hash_short_is_standard_witness : hash zeroW hello = "0x " ++ FIPS.hexDigest hello :=
  hash_short_is_standard zeroW hello (by decide)

/-- C18. The length field that `hash` appends during `finalize` is the
big-endian encoding of `8 * (n % 64)` for an input of `n` bytes: it is computed
from the size of the buffer at that time, which is `n % 64`; the digest is a
function of the hash state and the buffer alone, the only record the engine
keeps besides the schedule `w`, which does not reach the digest. -/
theorem length_field_from_pending (w0 : Words 64) (b : List Byte) :
    (update (fresh w0) b).data.length = b.length % 64 ∧
    lengthBytes (update (fresh w0) b).data.length = beBytes64 (8 * (b.length % 64)) ∧
    padded (update (fresh w0) b).data
      = padMarker (update (fresh w0) b).data ++ beBytes64 (8 * (b.length % 64)) ∧
    (∀ (s : SHA256) (w1 : Words 64), finalize { s with w := w1 } = finalize s) := by
  have hl : (update (fresh w0) b).data.length = b.length % 64 := by
    rw [update_data_length]; simp [fresh]
  have hb : lengthBytes (update (fresh w0) b).data.length = beBytes64 (8 * (b.length % 64)) := by
    rw [hl]
    exact lengthBytes_eq _ (Nat.lt_of_lt_of_le (Nat.mod_lt _ (by decide)) (by decide))
  refine ⟨hl, hb, ?_, fun s w1 => finalize_congr ⟨rfl, rfl⟩⟩
  unfold padded
  rw [hb]

/-- C19. Index safety: with every read and write of `w`, `h`, `k` and `data`
checked against the size of the array or vector, every index expression
`t - c` checked against going below zero and `erase` checked against the
vector size, `hash` never takes a failure branch, on any input and any prior
content of `w`: the checked engine returns the digest of the unchecked one.
The same holds for `update` and `finalize` from every engine state. -/
theorem index_safety (w0 : Words 64) (b : List Byte) (s : SHA256) (msg : List Byte) :
    hashChecked w0 b = some (hash w0 b) ∧
    updateChecked s msg = some (update s msg) ∧
    finalizeChecked s = some (finalize s) ∧
    transformChecked s = some (transform s) := by
  refine ⟨?_, updateChecked_some s msg, finalizeChecked_some s, transformChecked_some s⟩
  unfold hashChecked hash
  rw [updateChecked_some, Option.some_bind]
  exact finalizeChecked_some _

/-- C20. The function `rotr` is a right rotation: for a 32-bit `x` and
`0 < n < 32`, bit `i` of `rotr x n` is bit `(i + n) % 32` of `x` for every
`i` in `0..31`, the result is a 32-bit value, and rotating on by `32 - n`
gives `x` back. -/
theorem rotr_is_rotation (x n : Nat) (hx : x < 2 ^ 32) (h0 : 0 < n) (hn : n < 32) :
    (∀ i, i < 32 → (rotr x n).testBit i = x.testBit ((i + n) % 32)) ∧
    rotr x n < 2 ^ 32 ∧
    rotr (rotr x n) (32 - n) = x :=
  ⟨fun i hi => rotr_testBit x n i hx hn h0 hi, rotr_lt x n hx, rotr_rotr x n hx hn h0⟩

/-- C20 at `x = 0x80000001` and `n = 7`. -/
theorem rotr_is_rotation_witness :
    (∀ i, i < 32 → (rotr 0x80000001 7).testBit i = Nat.testBit 0x80000001 ((i + 7) % 32)) ∧
    rotr 0x80000001 7 < 2 ^ 32 ∧
    rotr (rotr 0x80000001 7) (32 - 7) = 0x80000001 :=
  rotr_is_rotation 0x80000001 7 (by decide) (by decide) (by decide)

end SHA256
